import Mathlib

/-!
Verification of the documentation-generation pipeline (`generate.py`) of the
kitty-conf.nvim repository.  The Python functions are shallowly embedded as
executable Lean functions over `List Char` / `String`; each Python regex
operation is translated into a dedicated scanner with the same leftmost-match,
greedy/lazy semantics (worked out per pattern, ASCII character model).
-/

namespace KittyConf

/-- ASCII whitespace, matching Python's `\s` / `str.strip()` on ASCII text. -/
def isSpaceChar (c : Char) : Bool :=
  c = ' ' || c = '\t' || c = '\n' || c = '\r' || c = '\x0b' || c = '\x0c'

/-- Python `\w` on ASCII text: letters, digits, underscore. -/
def isWordChar (c : Char) : Bool :=
  c.isAlpha || c.isDigit || c = '_'

/-- The backtick character (written via its code point). -/
def btick : Char := Char.ofNat 96

/-- Left trim, as in Python `str.lstrip()`. -/
def ltrim (l : List Char) : List Char := l.dropWhile isSpaceChar

/-- Right trim, as in Python `str.rstrip()`. -/
def rtrim (l : List Char) : List Char := (l.reverse.dropWhile isSpaceChar).reverse

/-- Python `str.strip()`. -/
def trimL (l : List Char) : List Char := ltrim (rtrim l)

/-- Is `pat` a contiguous sublist of `l`? (Python `pat in s`.) -/
def isSubL (pat : List Char) : List Char → Bool
  | [] => pat.isEmpty
  | c :: rest => pat.isPrefixOf (c :: rest) || isSubL pat rest

/-- Fuel-indexed form of the `re.sub` driver (structural recursion on the
fuel, so that the kernel can evaluate it; one unit of fuel per scan position
suffices since every step consumes at least one character). -/
def applySubF (m : List Char → Option (List Char × Nat)) : Nat → List Char → List Char
  | 0, l => l
  | _ + 1, [] => []
  | fuel + 1, c :: rest =>
    match m (c :: rest) with
    | some (rep, n) => rep ++ applySubF m fuel (rest.drop (n - 1))
    | none => c :: applySubF m fuel rest

/-- `re.sub` driver: scan left to right; when the matcher fires, emit its
replacement and resume after the consumed characters (the matcher returns the
replacement together with the total number of characters consumed, always at
least 1 for the patterns used here); otherwise copy one character. -/
def applySub (m : List Char → Option (List Char × Nat)) (l : List Char) : List Char :=
  applySubF m l.length l

/-- Fuel-indexed form of the `re.findall` driver. -/
def scanFindF (m : List Char → Option (List Char × Nat)) :
    Nat → List Char → List (List Char)
  | 0, _ => []
  | _ + 1, [] => []
  | fuel + 1, c :: rest =>
    match m (c :: rest) with
    | some (g, n) => g :: scanFindF m fuel (rest.drop (n - 1))
    | none => scanFindF m fuel rest

/-- `re.findall` driver: like `applySub` but collects the captured groups. -/
def scanFind (m : List Char → Option (List Char × Nat)) (l : List Char) :
    List (List Char) :=
  scanFindF m l.length l

/-- Matcher for `:(?:code|literal):`X`` (rule 1 of `strip_rst`): the
alternation tries `:code:` first; `[^`]*` is greedy and, since it cannot
contain a backtick, the content runs to the first closing backtick, which must
exist. Replacement is the content. -/
def matchCodeLiteral (l : List Char) : Option (List Char × Nat) :=
  if (":code:".toList ++ [btick]).isPrefixOf l then
    let t := (l.drop 7).takeWhile (fun c => ¬ c = btick)
    if t.length < (l.drop 7).length then some (t, 7 + t.length + 1) else none
  else if (":literal:".toList ++ [btick]).isPrefixOf l then
    let t := (l.drop 10).takeWhile (fun c => ¬ c = btick)
    if t.length < (l.drop 10).length then some (t, 10 + t.length + 1) else none
  else none

/-- Tail part of rule 2 after the lazy group: does `\s*<[^>]+>` followed by a
closing backtick match at the start of `t`?  `\s*` is greedy but forced (a
whitespace char is never `<`), `[^>]+` is greedy and forced (a non-`>` run
ending at the required `>`).  Returns the number of characters consumed. -/
def rtTry (t : List Char) : Option Nat :=
  let w := t.takeWhile isSpaceChar
  match t.drop w.length with
  | c0 :: v =>
    if c0 = '<' then
      let r := v.takeWhile (fun c => ¬ c = '>')
      if r.length = 0 then none
      else
        match v.drop r.length with
        | x :: y :: _ =>
          if x = '>' ∧ y = btick then some (w.length + 1 + r.length + 2) else none
        | _ => none
    else none
  | [] => none

/-- Lazy scan for rule 2's group `([^`]*?)`: try the shortest group first;
the group cannot contain a backtick.  Returns the group and the characters
consumed after the opening backtick (group, whitespace, `<target>`, backtick). -/
def rtLoop : List Char → Option (List Char × Nat)
  | [] => none
  | c :: rest =>
    match rtTry (c :: rest) with
    | some n => some ([], n)
    | none =>
      if c = btick then none
      else
        match rtLoop rest with
        | some (g, n) => some (c :: g, n + 1)
        | none => none

/-- Matcher for `:[a-z]+:`display <target>`` (rule 2): role name is a forced
greedy run of lowercase letters delimited by colons, then a backtick, then the
lazy group machinery of `rtLoop`.  Replacement is the display text. -/
def matchRoleTarget (l : List Char) : Option (List Char × Nat) :=
  match l with
  | c0 :: rest =>
    if c0 = ':' then
      let role := rest.takeWhile Char.isLower
      if role.length = 0 then none
      else
        match rest.drop role.length with
        | c1 :: c2 :: t =>
          if c1 = ':' ∧ c2 = btick then
            match rtLoop t with
            | some (g, n) => some (g, 1 + role.length + 2 + n)
            | none => none
          else none
        | _ => none
    else none
  | [] => none

/-- Matcher for `:[a-z]+:`~?value`` (rule 3): optional tilde, then a greedy
non-backtick run closed by a backtick.  Replacement is the value. -/
def matchRole (l : List Char) : Option (List Char × Nat) :=
  match l with
  | c0 :: rest =>
    if c0 = ':' then
      let role := rest.takeWhile Char.isLower
      if role.length = 0 then none
      else
        match rest.drop role.length with
        | c1 :: c2 :: t =>
          if c1 = ':' ∧ c2 = btick then
            let tdrop := if t.head? = some '~' then 1 else 0
            let t' := t.drop tdrop
            let g := t'.takeWhile (fun d => ¬ d = btick)
            if g.length < t'.length then
              some (g, 1 + role.length + 2 + tdrop + g.length + 1)
            else none
          else none
        | _ => none
    else none
  | [] => none

/-- Characters of the target class `[\w. @+=/:-]` in rule 4. -/
def isTargetChar (c : Char) : Bool :=
  isWordChar c || c = '.' || c = ' ' || c = '@' || c = '+' || c = '=' || c = '/' ||
    c = ':' || c = '-'

/-- Matcher for `\s*<(?!https?://)(?:[a-z@/][\w. @+=/:-]*)>` (rule 4): greedy
(forced) whitespace, `<`, the negative URL lookahead, a first character from
`[a-z@/]`, a greedy (forced) run of target-class characters, then `>`.
Replacement is empty. -/
def matchAngleTarget (l : List Char) : Option (List Char × Nat) :=
  let w := l.takeWhile isSpaceChar
  match l.drop w.length with
  | c0 :: u =>
    if c0 = '<' then
      if ("http://".toList.isPrefixOf u || "https://".toList.isPrefixOf u) then none
      else
        match u with
        | c :: v =>
          if c.isLower || c = '@' || c = '/' then
            let r := v.takeWhile isTargetChar
            match v.drop r.length with
            | d :: _ => if d = '>' then some ([], w.length + 2 + r.length + 1) else none
            | _ => none
          else none
        | [] => none
    else none
  | [] => none

/-- Matcher for ````code```` (rule 5): two backticks, a greedy (forced)
non-backtick run, two backticks. -/
def matchDoubleBacktick (l : List Char) : Option (List Char × Nat) :=
  match l with
  | a :: b :: t =>
    if a = btick ∧ b = btick then
      let g := t.takeWhile (fun d => ¬ d = btick)
      match t.drop g.length with
      | x :: y :: _ => if x = btick ∧ y = btick then some (g, 2 + g.length + 2) else none
      | _ => none
    else none
  | _ => none

/-- Matcher for `` `ref`_ `` (rule 6). -/
def matchRefUnderscore (l : List Char) : Option (List Char × Nat) :=
  match l with
  | a :: t =>
    if a = btick then
      let g := t.takeWhile (fun d => ¬ d = btick)
      match t.drop g.length with
      | x :: y :: _ => if x = btick ∧ y = '_' then some (g, 1 + g.length + 2) else none
      | _ => none
    else none
  | [] => none

/-- Matcher for the literal `.. note::` (rule 7), replaced by `Note:`. -/
def matchNoteDir (l : List Char) : Option (List Char × Nat) :=
  if (".. note::".toList).isPrefixOf l then some ("Note:".toList, 9) else none

/-- Matcher for `\.\. versionadded:: (\S+)` (rule 8), replaced by
`(added in X)`. -/
def matchVersionAdded (l : List Char) : Option (List Char × Nat) :=
  if (".. versionadded:: ".toList).isPrefixOf l then
    let g := (l.drop 18).takeWhile (fun c => ¬ isSpaceChar c)
    if g.length = 0 then none
    else some ("(added in ".toList ++ g ++ [')'], 18 + g.length)
  else none

/-- Matcher for `\.\. code-block::.*` (rule 9): the directive and the rest of
its line (`.` does not cross a newline) are deleted. -/
def matchCodeBlockDir (l : List Char) : Option (List Char × Nat) :=
  if (".. code-block::".toList).isPrefixOf l then
    let g := (l.drop 15).takeWhile (fun c => ¬ c = '\n')
    some ([], 15 + g.length)
  else none

/-- Matcher for `\|(\w+)\|` (rule 10): substitution reference. -/
def matchSubRef (l : List Char) : Option (List Char × Nat) :=
  match l with
  | a :: t =>
    if a = '|' then
      let w := t.takeWhile isWordChar
      if w.length = 0 then none
      else
        match t.drop w.length with
        | d :: _ => if d = '|' then some (w, 1 + w.length + 1) else none
        | _ => none
    else none
  | [] => none

/-- Matcher for `(\w)::` (rule 11): a word character followed by a double
colon becomes the character followed by a single colon. -/
def matchDcolon (l : List Char) : Option (List Char × Nat) :=
  match l with
  | c :: d :: e :: _ =>
    if isWordChar c ∧ d = ':' ∧ e = ':' then some ([c, ':'], 3) else none
  | _ => none

/-- `strip_rst` on character lists: the eleven ordered substitutions of
`generate.py` followed by `str.strip()`. -/
def stripRstL (l : List Char) : List Char :=
  trimL (applySub matchDcolon (applySub matchSubRef (applySub matchCodeBlockDir
    (applySub matchVersionAdded (applySub matchNoteDir (applySub matchRefUnderscore
      (applySub matchDoubleBacktick (applySub matchAngleTarget (applySub matchRole
        (applySub matchRoleTarget (applySub matchCodeLiteral l)))))))))))

/-- `strip_rst(text)` from `generate.py`. -/
def strip_rst (s : String) : String :=
  if s = "" then "" else String.mk (stripRstL s.toList)

/-- `text.split("\n\n")[0]`: the characters before the first blank-line
break. -/
def firstParaL : List Char → List Char
  | [] => []
  | c :: rest =>
    if c = '\n' ∧ rest.head? = some '\n' then [] else c :: firstParaL rest

/-- The five trigger phrases of `extract_values`, matched case-insensitively
(the sentence is lowercased first, the phrases are already lowercase). -/
def hasTriggerPhrase (seg : List Char) : Bool :=
  let low := seg.map Char.toLower
  isSubL "can be".toList low || isSubL "one of".toList low ||
    isSubL "valid values".toList low || isSubL "set to one".toList low ||
    isSubL "allowed values".toList low

/-- Fuel-indexed form of `triggerSentence`. -/
def triggerSentenceF : Nat → List Char → Option (List Char)
  | 0, _ => none
  | fuel + 1, l =>
    let seg := l.takeWhile (fun c => ¬ c = '.')
    match l.drop seg.length with
    | c :: rest =>
      if c = '.' then
        if hasTriggerPhrase seg then some (seg ++ ['.']) else triggerSentenceF fuel rest
      else none
    | [] => none

/-- `re.search(r"[^.]*(?:can be|...)[^.]*\.", first_para, re.IGNORECASE)`.
Because the trigger phrases and `[^.]*` are dot-free while the pattern ends
with a literal dot, the leftmost match is exactly the first dot-terminated
dot-free segment containing a trigger phrase, together with its closing dot;
a trailing segment with no closing dot can never match. -/
def triggerSentence (l : List Char) : Option (List Char) :=
  triggerSentenceF (l.length + 1) l

/-- Matcher for `:opt:`(\w+)``: used by `re.findall`. -/
def matchOptRef (l : List Char) : Option (List Char × Nat) :=
  if (":opt:".toList ++ [btick]).isPrefixOf l then
    let w := (l.drop 6).takeWhile isWordChar
    if w.length = 0 then none
    else
      match (l.drop 6).drop w.length with
      | c :: _ => if c = btick then some (w, 6 + w.length + 1) else none
      | _ => none
  else none

/-- Matcher for `:code:`([^`]+)``: used by `re.findall`. -/
def matchCodeTok (l : List Char) : Option (List Char × Nat) :=
  if (":code:".toList ++ [btick]).isPrefixOf l then
    let w := (l.drop 7).takeWhile (fun c => ¬ c = btick)
    if w.length = 0 then none
    else
      match (l.drop 7).drop w.length with
      | c :: _ => if c = btick then some (w, 7 + w.length + 1) else none
      | _ => none
  else none

/-- `re.findall(r":opt:`(\w+)`", s)`. -/
def optRefs (l : List Char) : List (List Char) := scanFind matchOptRef l

/-- `re.findall(r":code:`([^`]+)`", s)`. -/
def codeTokens (l : List Char) : List (List Char) := scanFind matchCodeTok l

/-- Fuel-indexed form of `dedupKeep`. -/
def dedupKeepF : Nat → List (List Char) → List (List Char)
  | 0, l => l
  | _ + 1, [] => []
  | fuel + 1, x :: xs => x :: dedupKeepF fuel (xs.filter (fun y => ¬ y = x))

/-- `list(dict.fromkeys(xs))`: deduplication keeping the first occurrence of
each element, preserving first-seen order. -/
def dedupKeep (l : List (List Char)) : List (List Char) :=
  dedupKeepF l.length l

/-- `extract_values(opt_name, text)` from `generate.py`. -/
def extract_values (opt_name text : String) : List String :=
  if text = "" then []
  else
    match triggerSentence (firstParaL text.toList) with
    | none => []
    | some sent =>
      if ∃ o ∈ optRefs sent, ¬ o = opt_name.toList then []
      else
        let values := dedupKeep (codeTokens sent)
        if 2 ≤ values.length ∧ ∀ v ∈ values, v.length < 30 then values.map String.mk
        else []

/-- Fuel-indexed form of `splitSent`. -/
def splitSentF : Nat → List Char → List (List Char)
  | 0, l => [l]
  | _ + 1, [] => [[]]
  | fuel + 1, c :: rest =>
    if (c = '.' ∨ c = '!' ∨ c = '?') ∧ (rest.takeWhile isSpaceChar).length ≠ 0 then
      [c] :: splitSentF fuel (rest.dropWhile isSpaceChar)
    else
      match splitSentF fuel rest with
      | [] => [[c]]
      | s :: ss => (c :: s) :: ss

/-- `re.split(r"(?<=[.!?])\s+", raw_doc)`: split on each maximal whitespace
run directly preceded by terminal punctuation. -/
def splitSent (l : List Char) : List (List Char) :=
  splitSentF l.length l

/-- `none_is_special_value(opt_name, raw_doc)` from `generate.py`. -/
def none_is_special_value (opt_name raw_doc : String) : Bool :=
  if raw_doc = "" then false
  else
    (splitSent raw_doc.toList).any fun s =>
      isSubL (":code:".toList ++ [btick] ++ "none".toList ++ [btick]) s &&
        (optRefs s).all (fun o => o = opt_name.toList)

/-- `\.?\s*` after the "for details" literal in the stub-stripping regex:
an optional dot then greedy whitespace. -/
def afterFD (l : List Char) : List Char :=
  (if l.head? = some '.' then l.tail else l).dropWhile isSpaceChar

/-- Lazy scan for `.*?\bfor details` (no newline inside `.*?`): find the
first occurrence of `for details` preceded by a non-word character, without
crossing a newline; `prev` is the character before the current position. -/
def findFD (prev : Char) : List Char → Option (List Char)
  | [] => none
  | c :: rest =>
    if ¬ isWordChar prev ∧ "for details".toList.isPrefixOf (c :: rest) then
      some (afterFD ((c :: rest).drop 11))
    else if c = '\n' then none
    else findFD c rest

/-- `re.sub(r"^See\b.*?\bfor details\.?\s*", "", text, count=1)`: anchored;
`^See\b` needs a non-word character (or the end) after `See`; the lazy middle
is resolved by `findFD`.  On no match the text is returned unchanged. -/
def stripSeeLead (l : List Char) : List Char :=
  if "See".toList.isPrefixOf l then
    match (l.drop 3).head? with
    | none => l
    | some c =>
      if isWordChar c then l
      else
        match findFD 'e' (l.drop 3) with
        | some res => res
        | none => l
  else l

/-- `is_stub_doc(text)` from `generate.py`. -/
def is_stub_doc (text : String) : Bool :=
  if text = "" then false
  else decide ((trimL (stripSeeLead text.toList)).length < 20)

/-- Python `sep.join(xs)`. -/
def joinSep (sep : String) : List String → String
  | [] => ""
  | [x] => x
  | x :: y :: xs => x ++ sep ++ joinSep sep (y :: xs)

/-- Python `s.split()` (no separator): whitespace-delimited words, empties
dropped. -/
def splitWords (l : List Char) : List (List Char) :=
  (List.splitOnP isSpaceChar l).filter (fun w => ¬ w = [])

/-- Python `" ".join(s.split())`: collapse all whitespace runs to single
spaces and drop leading/trailing whitespace. -/
def collapseWs (s : String) : String :=
  joinSep " " ((splitWords s.toList).map String.mk)

/-- `", ".join(line.split())` for a flag line of `parse_options_spec`. -/
def flagsOfLine (line : String) : String :=
  joinSep ", " ((splitWords line.toList).map String.mk)

/-- The metadata dictionary accumulated per flag: keys are restricted to
`type`, `default`, `choices`, `completion` by the line classifier. -/
structure FlagMeta where
  typeMeta : Option String := none
  defaultMeta : Option String := none
  choicesMeta : Option String := none
  completionMeta : Option String := none
deriving Repr, DecidableEq

/-- Python truthiness of `dict.get(key)`: present and non-empty. -/
def truthy : Option String → Bool
  | none => false
  | some s => ¬ s = ""

/-- `line.strip().partition("=")`, keeping key and value. -/
def partitionEq (t : List Char) : String × String :=
  let k := t.takeWhile (fun c => ¬ c = '=')
  (String.mk k, String.mk (t.drop (k.length + 1)))

/-- `current_meta[key] = val`. -/
def setMeta (m : FlagMeta) (k v : String) : FlagMeta :=
  if k = "type" then { m with typeMeta := some v }
  else if k = "default" then { m with defaultMeta := some v }
  else if k = "choices" then { m with choicesMeta := some v }
  else if k = "completion" then { m with completionMeta := some v }
  else m

/-- `re.match(r"^(type|default|choices|completion)=", line.strip())`. -/
def isMetaLine (line : String) : Bool :=
  let t := trimL line.toList
  "type=".toList.isPrefixOf t || "default=".toList.isPrefixOf t ||
    "choices=".toList.isPrefixOf t || "completion=".toList.isPrefixOf t

/-- `re.match(r"([^.]+\.)\s", first_para)`: anchored; `[^.]+` is a forced
greedy run of non-dot characters, so the match requires the text's first dot
to exist, be preceded by at least one character, and be followed by a
whitespace character; the group runs through that dot. -/
def matchFirstSentence (l : List Char) : Option (List Char) :=
  if (l.takeWhile (fun c => ¬ c = '.')).length = 0 then none
  else
    match l.drop (l.takeWhile (fun c => ¬ c = '.')).length with
    | c :: d :: _ =>
      if c = '.' ∧ isSpaceChar d then
        some (l.takeWhile (fun c => ¬ c = '.') ++ ['.'])
      else none
    | _ => none

/-- The base description of a flushed flag (`flush()` up to the length
check): `strip_rst("\n".join(desc_lines).strip())`, first paragraph,
whitespace-collapsed to one line. -/
def flatDesc (descLines : List String) : String :=
  let desc := strip_rst (String.mk (trimL (joinSep "\n" descLines).toList))
  collapseWs (if desc = "" then "" else String.mk (trimL (firstParaL desc.toList)))

/-- The truncation branch of `flush()`: keep `m.group(1)` of
`re.match(r"([^.]+\.)\s", first_para)` when it matches. -/
def truncLong (fp : String) : String :=
  match matchFirstSentence fp.toList with
  | some s => String.mk s
  | none => fp

/-- The `flush()` closure of `parse_options_spec`: renders one accumulated
flag entry. -/
def flushEntry (flags : String) (meta : FlagMeta) (descLines : List String) :
    String × String :=
  let fp1 := flatDesc descLines
  let fp2 := if 120 < fp1.length then truncLong fp1 else fp1
  let flagStr :=
    if truthy meta.choicesMeta then
      flags ++ "=" ++
        joinSep "|" (((meta.choicesMeta.getD "").toList.splitOn ',').map String.mk)
    else if meta.typeMeta = some "list" then flags ++ " (repeatable)"
    else flags
  let fp3 :=
    if truthy meta.defaultMeta then
      fp2 ++ " (default: " ++ meta.defaultMeta.getD "" ++ ")"
    else fp2
  (flagStr, fp3)

/-- Parser state of `parse_options_spec`. -/
structure PState where
  entries : List (String × String)
  currentFlags : Option String
  meta : FlagMeta
  descLines : List String
deriving Repr

/-- One iteration of the line loop of `parse_options_spec`. -/
def stepLine (st : PState) (line : String) : PState :=
  if String.mk (trimL line.toList) = "#placeholder_for_formatting#" then st
  else if "--".toList.isPrefixOf line.toList then
    let entries :=
      match st.currentFlags with
      | none => st.entries
      | some f => st.entries ++ [flushEntry f st.meta st.descLines]
    { entries := entries, currentFlags := some (flagsOfLine line), meta := {},
      descLines := [] }
  else
    match st.currentFlags with
    | none => st
    | some _ =>
      if isMetaLine line then
        let kv := partitionEq (trimL line.toList)
        { st with meta := setMeta st.meta kv.1 kv.2 }
      else { st with descLines := st.descLines ++ [line] }

/-- `parse_options_spec(spec)` from `generate.py`. -/
def parse_options_spec (spec : String) : List (String × String) :=
  if spec = "" then []
  else
    let lines := (spec.toList.splitOn '\n').map String.mk
    let st := lines.foldl stepLine ⟨[], none, {}, []⟩
    match st.currentFlags with
    | none => st.entries
    | some f => st.entries ++ [flushEntry f st.meta st.descLines]

/-- `format_flags_doc(entries)` from `generate.py`. -/
def format_flags_doc (entries : List (String × String)) : String :=
  joinSep "\n" (entries.flatMap fun fd =>
    ("  " ++ fd.1) :: (if ¬ fd.2 = "" then ["    " ++ fd.2] else []))

/-- One action record of the `action_map` (`{name, short, doc}`). -/
structure ActionRec where
  name : String
  short : String
  doc : String
deriving Repr, DecidableEq

/-- The fixed `rc_name_map` alias dictionary lookup with default. -/
def rcNameMap (n : String) : String :=
  if n = "disable_ligatures_in" then "disable_ligatures"
  else if n = "start_resizing_window" then "resize_window"
  else n

/-- Launch pass of `enrich_stub_actions`: the optional
`kitty.launch.options_spec` source is modelled as an `Option String`
(`none` = the import fails, the caught exception skips the enrichment). -/
def enrichLaunch (launchSpec? : Option String) (m : List ActionRec) : List ActionRec :=
  m.map fun r =>
    if r.name = "launch" ∧ is_stub_doc r.doc then
      match launchSpec? with
      | none => r
      | some spec =>
        let entries := parse_options_spec spec
        if ¬ entries = [] then { r with doc := "Flags:\n" ++ format_flags_doc entries }
        else r
    else r

/-- Shortcut-map pass of `enrich_stub_actions`: `definition.shortcut_map` is
modelled as an association list from action name to `mappings[0].long_text`
(empty string for a falsy `long_text`). -/
def enrichShortcuts (scm : List (String × String)) (m : List ActionRec) :
    List ActionRec :=
  scm.foldl (fun acc nl =>
    acc.map fun r =>
      if r.name = nl.1 ∧ is_stub_doc r.doc ∧ ¬ nl.2 = "" ∧ ¬ is_stub_doc nl.2 then
        { r with doc := strip_rst nl.2 }
      else r) m

/-- Remote-control pass of `enrich_stub_actions`: `command_for_name` is
modelled as `Option (String → Option String)` — `none` for a failed import,
and a per-name `none` result for the `KeyError` caught by the inner
`try`/`except`. -/
def enrichRc (cfn? : Option (String → Option String)) (m : List ActionRec) :
    List ActionRec :=
  match cfn? with
  | none => m
  | some f =>
    m.map fun r =>
      if is_stub_doc r.doc then
        match f (rcNameMap r.name) with
        | some d => { r with doc := strip_rst d }
        | none => r
      else r

/-- The three fault-isolated lookup passes of `enrich_stub_actions`
(lines 200-237 of `generate.py`), before the final "See X" cleanup. -/
def enrichLookups (launchSpec? : Option String) (scm : List (String × String))
    (cfn? : Option (String → Option String)) (m : List ActionRec) : List ActionRec :=
  enrichRc cfn? (enrichShortcuts scm (enrichLaunch launchSpec? m))

/-- Does `\s+.+$` match the whole of `u` (`u` being the text after a `See`
occurrence)?  `$` matches at the end of the string or just before one final
newline; `.` never matches a newline while `\s` does, so after peeling at
most one trailing newline the question is whether the rest splits into a
nonempty whitespace prefix followed by a nonempty newline-free suffix. -/
def seeTailOk (u : List Char) : Bool :=
  let v := if u.getLast? = some '\n' then u.dropLast else u
  let w := v.takeWhile isSpaceChar
  if w.length = 0 then false
  else if w.length = v.length then
    (match v.getLast? with
     | some c => decide (¬ c = '\n')
     | none => false) &&
      (v.contains '\n' || decide (2 ≤ w.length))
  else decide (¬ (v.drop w.length).contains '\n')

/-- `\.?` at the head of the "See X" clause pattern. -/
def dropDot (l : List Char) : List Char :=
  if l.head? = some '.' then l.tail else l

/-- Does `\.?\s*See\s+.+$` match at the start of `l` (with `l` running to the
end of the string)?  The optional dot and the whitespace run are forced. -/
def matchSeeHere (l : List Char) : Bool :=
  let l2 := (dropDot l).dropWhile isSpaceChar
  "See".toList.isPrefixOf l2 && seeTailOk (l2.drop 3)

/-- `re.sub(r"\.?\s*See\s+.+$", "", s)`: remove the leftmost (and only
possible) match; the match runs to the `$` anchor, so at most one trailing
newline survives it. -/
def removeSeeMatch : List Char → List Char
  | [] => []
  | c :: rest =>
    if matchSeeHere (c :: rest) then
      if (c :: rest).getLast? = some '\n' then ['\n'] else []
    else c :: removeSeeMatch rest

/-- The `short` cleanup of `enrich_stub_actions`:
`re.sub(see_re, "", entry["short"]).strip()`. -/
def stripSeeClause (s : String) : String :=
  String.mk (trimL (removeSeeMatch s.toList))

/-- `re.match(r"^See\b", doc)`. -/
def startsSeeB (s : String) : Bool :=
  "See".toList.isPrefixOf s.toList &&
    (match (s.toList.drop 3).head? with
     | none => true
     | some c => !isWordChar c)

/-- The final cleanup loop of `enrich_stub_actions` (lines 239-246), applied
to every record. -/
def stripSeePassRec (r : ActionRec) : ActionRec :=
  let doc' :=
    if ¬ r.doc = "" ∧ startsSeeB r.doc then
      String.mk (trimL (stripSeeLead r.doc.toList))
    else r.doc
  { r with short := stripSeeClause r.short, doc := doc' }

/-- `enrich_stub_actions(action_map)` from `generate.py`, with the optional
external sources as parameters. -/
def enrich_stub_actions (launchSpec? : Option String) (scm : List (String × String))
    (cfn? : Option (String → Option String)) (m : List ActionRec) : List ActionRec :=
  (enrichLookups launchSpec? scm cfn? m).map stripSeePassRec

/-- Spec-side rendering of the flag-signature suffix, following the amended
claim C5: `=choice1|choice2|...` when choices metadata is present with a
non-empty value (`truthy`), else ` (repeatable)` when `type=list` metadata is
present. -/
def specSigSuffix (meta : FlagMeta) : String :=
  if truthy meta.choicesMeta then
    "=" ++ joinSep "|" (((meta.choicesMeta.getD "").toList.splitOn ',').map String.mk)
  else if meta.typeMeta = some "list" then " (repeatable)" else ""

/-- Spec-side rendering of the description suffix, following the amended
claim C5: a trailing ` (default: <value>)` when default metadata is present
with a non-empty value (`truthy`). -/
def specDefaultSuffix (meta : FlagMeta) : String :=
  if truthy meta.defaultMeta then " (default: " ++ meta.defaultMeta.getD "" ++ ")"
  else ""

/-- Spec-side truncation, following the amended claim C5: the text up to and
including its first period (index `i` from `findIdx?`, defaulting past the
end when there is no period), when that period is not the first character and
is followed by a whitespace character; otherwise the text unchanged. -/
def specTruncate (s : String) : String :=
  let i := (s.toList.findIdx? (fun c => c = '.')).getD s.toList.length
  if 0 < i ∧ i + 1 < s.toList.length ∧ isSpaceChar (s.toList.getD (i + 1) ' ') then
    String.mk (s.toList.take (i + 1))
  else s

/-- Texts free of the markup dialect, for claim C7: no backtick, no angle
bracket opener, no substitution-reference bar, no double colon, and no
leading or trailing whitespace.  None of the eleven rewrite rules of
`strip_rst` can fire on such a text. -/
def markupFreeB (l : List Char) : Bool :=
  l.all (fun c => ¬ c = btick ∧ ¬ c = '<' ∧ ¬ c = '|') &&
    ¬ isSubL [':', ':'] l && ltrim l = l && rtrim l = l

/-! ## General helper lemmas -/

theorem applySubF_congr (m : List Char → Option (List Char × Nat)) :
    ∀ (f₁ : Nat) (l : List Char) (f₂ : Nat), l.length ≤ f₁ → l.length ≤ f₂ →
      applySubF m f₁ l = applySubF m f₂ l := by
  intro f₁
  induction f₁ with
  | zero =>
    intro l f₂ h₁ _
    have hl : l = [] := List.length_eq_zero.mp (Nat.le_zero.mp h₁)
    subst hl
    cases f₂ <;> rfl
  | succ f ih =>
    intro l f₂ h₁ h₂
    cases l with
    | nil => cases f₂ <;> rfl
    | cons c rest =>
      cases f₂ with
      | zero => simp at h₂
      | succ g =>
        simp only [List.length_cons, Nat.add_le_add_iff_right] at h₁ h₂
        simp only [applySubF]
        cases hm : m (c :: rest) with
        | none =>
          show c :: applySubF m f rest = c :: applySubF m g rest
          rw [ih rest g h₁ h₂]
        | some p =>
          obtain ⟨rep, n⟩ := p
          have hd : (rest.drop (n - 1)).length ≤ rest.length := by
            simp [List.length_drop]
          show rep ++ applySubF m f (rest.drop (n - 1)) =
            rep ++ applySubF m g (rest.drop (n - 1))
          rw [ih (rest.drop (n - 1)) g (by omega) (by omega)]

theorem applySub_cons (m : List Char → Option (List Char × Nat)) (c : Char)
    (rest : List Char) :
    applySub m (c :: rest) =
      match m (c :: rest) with
      | some (rep, n) => rep ++ applySub m (rest.drop (n - 1))
      | none => c :: applySub m rest := by
  show applySubF m (rest.length + 1) (c :: rest) = _
  simp only [applySubF]
  cases hm : m (c :: rest) with
  | none => rfl
  | some p =>
    obtain ⟨rep, n⟩ := p
    have hd : (rest.drop (n - 1)).length ≤ rest.length := by
      simp [List.length_drop]
    show rep ++ applySubF m rest.length (rest.drop (n - 1)) =
      rep ++ applySub m (rest.drop (n - 1))
    rw [applySubF_congr m rest.length (rest.drop (n - 1)) (rest.drop (n - 1)).length hd
      (Nat.le_refl _)]
    rfl

theorem scanFindF_congr (m : List Char → Option (List Char × Nat)) :
    ∀ (f₁ : Nat) (l : List Char) (f₂ : Nat), l.length ≤ f₁ → l.length ≤ f₂ →
      scanFindF m f₁ l = scanFindF m f₂ l := by
  intro f₁
  induction f₁ with
  | zero =>
    intro l f₂ h₁ _
    have hl : l = [] := List.length_eq_zero.mp (Nat.le_zero.mp h₁)
    subst hl
    cases f₂ <;> rfl
  | succ f ih =>
    intro l f₂ h₁ h₂
    cases l with
    | nil => cases f₂ <;> rfl
    | cons c rest =>
      cases f₂ with
      | zero => simp at h₂
      | succ g =>
        simp only [List.length_cons, Nat.add_le_add_iff_right] at h₁ h₂
        simp only [scanFindF]
        cases hm : m (c :: rest) with
        | none =>
          show scanFindF m f rest = scanFindF m g rest
          rw [ih rest g h₁ h₂]
        | some p =>
          obtain ⟨rep, n⟩ := p
          have hd : (rest.drop (n - 1)).length ≤ rest.length := by
            simp [List.length_drop]
          show rep :: scanFindF m f (rest.drop (n - 1)) =
            rep :: scanFindF m g (rest.drop (n - 1))
          rw [ih (rest.drop (n - 1)) g (by omega) (by omega)]

theorem scanFind_cons (m : List Char → Option (List Char × Nat)) (c : Char)
    (rest : List Char) :
    scanFind m (c :: rest) =
      match m (c :: rest) with
      | some (g, n) => g :: scanFind m (rest.drop (n - 1))
      | none => scanFind m rest := by
  show scanFindF m (rest.length + 1) (c :: rest) = _
  simp only [scanFindF]
  cases hm : m (c :: rest) with
  | none => rfl
  | some p =>
    obtain ⟨g, n⟩ := p
    have hd : (rest.drop (n - 1)).length ≤ rest.length := by
      simp [List.length_drop]
    show g :: scanFindF m rest.length (rest.drop (n - 1)) =
      g :: scanFind m (rest.drop (n - 1))
    rw [scanFindF_congr m rest.length (rest.drop (n - 1)) (rest.drop (n - 1)).length hd
      (Nat.le_refl _)]
    rfl

theorem triggerSentenceF_congr :
    ∀ (f₁ : Nat) (l : List Char) (f₂ : Nat), l.length + 1 ≤ f₁ → l.length + 1 ≤ f₂ →
      triggerSentenceF f₁ l = triggerSentenceF f₂ l := by
  intro f₁
  induction f₁ with
  | zero => intro l f₂ h₁ _; omega
  | succ f ih =>
    intro l f₂ h₁ h₂
    cases f₂ with
    | zero => omega
    | succ g =>
      simp only [triggerSentenceF]
      cases hd : l.drop (l.takeWhile (fun c => ¬ c = '.')).length with
      | nil => rfl
      | cons c rest =>
        show (if c = '.' then _ else none) = (if c = '.' then _ else none)
        by_cases hdot : c = '.'
        · rw [if_pos hdot, if_pos hdot]
          by_cases ht : hasTriggerPhrase (l.takeWhile (fun c => ¬ c = '.')) = true
          · rw [if_pos ht, if_pos ht]
          · have hlen : rest.length + 1 ≤ l.length := by
              have := congrArg List.length hd
              simp only [List.length_drop, List.length_cons] at this
              omega
            rw [if_neg ht, if_neg ht]
            exact ih rest g (by omega) (by omega)
        · rw [if_neg hdot, if_neg hdot]

theorem triggerSentence_eq (l : List Char) :
    triggerSentence l =
      match l.drop (l.takeWhile (fun c => ¬ c = '.')).length with
      | c :: rest =>
        if c = '.' then
          if hasTriggerPhrase (l.takeWhile (fun c => ¬ c = '.')) then
            some ((l.takeWhile (fun c => ¬ c = '.')) ++ ['.'])
          else triggerSentence rest
        else none
      | [] => none := by
  show triggerSentenceF (l.length + 1) l = _
  simp only [triggerSentenceF]
  cases hd : l.drop (l.takeWhile (fun c => ¬ c = '.')).length with
  | nil => rfl
  | cons c rest =>
    show (if c = '.' then _ else none) = (if c = '.' then _ else none)
    by_cases hdot : c = '.'
    · rw [if_pos hdot, if_pos hdot]
      by_cases ht : hasTriggerPhrase (l.takeWhile (fun c => ¬ c = '.')) = true
      · rw [if_pos ht, if_pos ht]
      · have hlen : rest.length + 1 ≤ l.length := by
          have := congrArg List.length hd
          simp only [List.length_drop, List.length_cons] at this
          omega
        rw [if_neg ht, if_neg ht]
        exact triggerSentenceF_congr l.length rest (rest.length + 1) (by omega)
          (Nat.le_refl _)
    · rw [if_neg hdot, if_neg hdot]

theorem dedupKeepF_congr :
    ∀ (f₁ : Nat) (l : List (List Char)) (f₂ : Nat), l.length ≤ f₁ → l.length ≤ f₂ →
      dedupKeepF f₁ l = dedupKeepF f₂ l := by
  intro f₁
  induction f₁ with
  | zero =>
    intro l f₂ h₁ _
    have hl : l = [] := List.length_eq_zero.mp (Nat.le_zero.mp h₁)
    subst hl
    cases f₂ <;> rfl
  | succ f ih =>
    intro l f₂ h₁ h₂
    cases l with
    | nil => cases f₂ <;> rfl
    | cons x xs =>
      cases f₂ with
      | zero => simp at h₂
      | succ g =>
        simp only [List.length_cons, Nat.add_le_add_iff_right] at h₁ h₂
        simp only [dedupKeepF, List.cons.injEq, true_and]
        have hf := List.length_filter_le (fun y => decide (¬ y = x)) xs
        exact ih _ g (by omega) (by omega)

theorem dedupKeep_cons (x : List Char) (xs : List (List Char)) :
    dedupKeep (x :: xs) = x :: dedupKeep (xs.filter (fun y => ¬ y = x)) := by
  show dedupKeepF (xs.length + 1) (x :: xs) = _
  simp only [dedupKeepF, List.cons.injEq, true_and]
  have hf := List.length_filter_le (fun y => decide (¬ y = x)) xs
  exact dedupKeepF_congr xs.length _ _ (by omega) (Nat.le_refl _)

theorem splitSentF_congr :
    ∀ (f₁ : Nat) (l : List Char) (f₂ : Nat), l.length ≤ f₁ → l.length ≤ f₂ →
      splitSentF f₁ l = splitSentF f₂ l := by
  intro f₁
  induction f₁ with
  | zero =>
    intro l f₂ h₁ _
    have hl : l = [] := List.length_eq_zero.mp (Nat.le_zero.mp h₁)
    subst hl
    cases f₂ <;> rfl
  | succ f ih =>
    intro l f₂ h₁ h₂
    cases l with
    | nil => cases f₂ <;> rfl
    | cons c rest =>
      cases f₂ with
      | zero => simp at h₂
      | succ g =>
        simp only [List.length_cons, Nat.add_le_add_iff_right] at h₁ h₂
        simp only [splitSentF]
        by_cases hcond :
            (c = '.' ∨ c = '!' ∨ c = '?') ∧ (rest.takeWhile isSpaceChar).length ≠ 0
        · have hdw := List.Sublist.length_le (List.dropWhile_sublist (l := rest) isSpaceChar)
          simp only [if_pos hcond]
          rw [ih (rest.dropWhile isSpaceChar) g (by omega) (by omega)]
        · simp only [if_neg hcond]
          rw [ih rest g h₁ h₂]

theorem splitSent_cons (c : Char) (rest : List Char) :
    splitSent (c :: rest) =
      if (c = '.' ∨ c = '!' ∨ c = '?') ∧ (rest.takeWhile isSpaceChar).length ≠ 0 then
        [c] :: splitSent (rest.dropWhile isSpaceChar)
      else
        match splitSent rest with
        | [] => [[c]]
        | s :: ss => (c :: s) :: ss := by
  show splitSentF (rest.length + 1) (c :: rest) = _
  simp only [splitSentF]
  by_cases hcond :
      (c = '.' ∨ c = '!' ∨ c = '?') ∧ (rest.takeWhile isSpaceChar).length ≠ 0
  · have hdw := List.Sublist.length_le (List.dropWhile_sublist (l := rest) isSpaceChar)
    simp only [if_pos hcond]
    rw [splitSentF_congr rest.length (rest.dropWhile isSpaceChar) _ (by omega)
      (Nat.le_refl _)]
    rfl
  · simp only [if_neg hcond]
    rfl

theorem map_id_of_mem {α : Type} (l : List α) (f : α → α) (h : ∀ a ∈ l, f a = a) :
    l.map f = l := by
  induction l with
  | nil => rfl
  | cons a t ih =>
    simp only [List.map_cons, List.cons.injEq]
    exact ⟨h a (List.mem_cons_self a t), ih fun b hb => h b (List.mem_cons_of_mem a hb)⟩

theorem dropWhile_eq_self_of_false {p : Char → Bool} {l : List Char}
    (h : ∀ c ∈ l, p c = false) : l.dropWhile p = l := by
  cases l with
  | nil => rfl
  | cons c t => exact List.dropWhile_cons_of_neg (by simp [h c (List.mem_cons_self c t)])

theorem trimL_eq_self_of_nonspace {l : List Char}
    (h : ∀ c ∈ l, isSpaceChar c = false) : trimL l = l := by
  unfold trimL ltrim rtrim
  rw [dropWhile_eq_self_of_false (fun c hc => h c (List.mem_reverse.mp hc)),
    List.reverse_reverse, dropWhile_eq_self_of_false h]

theorem rtrim_isPrefix (l : List Char) : rtrim l <+: l := by
  unfold rtrim
  have h := List.dropWhile_suffix (l := l.reverse) isSpaceChar
  rw [← List.reverse_prefix] at h
  simpa using h

theorem rtrim_ne_nil_of_mem {l : List Char} {c : Char} (hc : c ∈ l)
    (hns : isSpaceChar c = false) : ¬ rtrim l = [] := by
  intro h
  unfold rtrim at h
  have h2 : l.reverse.dropWhile isSpaceChar = [] := by
    have := congrArg List.reverse h
    simpa using this
  rw [List.dropWhile_eq_nil_iff] at h2
  have := h2 c (List.mem_reverse.mpr hc)
  rw [hns] at this
  exact Bool.false_ne_true this

theorem trimL_head_of_nonspace {c : Char} (hc : isSpaceChar c = false)
    (t : List Char) : ∃ t', trimL (c :: t) = c :: t' := by
  obtain ⟨u, hu⟩ := rtrim_isPrefix (c :: t)
  cases hr : rtrim (c :: t) with
  | nil => exact absurd hr (rtrim_ne_nil_of_mem (List.mem_cons_self c t) hc)
  | cons d t' =>
    have hd : d = c := by
      rw [hr] at hu
      cases hu
      rfl
    subst hd
    refine ⟨t', ?_⟩
    unfold trimL ltrim
    rw [hr, List.dropWhile_cons_of_neg (by simp [hc])]

theorem mk_toList (s : String) : String.mk s.toList = s := rfl

theorem toList_mk (l : List Char) : (String.mk l).toList = l := rfl

theorem mk_append (a b : List Char) : String.mk a ++ String.mk b = String.mk (a ++ b) := rfl

/-! ## Claim C2 -/

/-- Claim C2: `none_is_special_value` returns true iff some sentence of the
text (split on terminal punctuation) contains a verbatim-code mention of the
literal token `none` and every option cross-reference in that sentence equals
the queried identifier (vacuously when the sentence has no reference). -/
theorem none_detector_iff (opt_name raw_doc : String) :
    none_is_special_value opt_name raw_doc = true ↔
      ∃ s ∈ splitSent raw_doc.toList,
        isSubL (":code:".toList ++ [btick] ++ "none".toList ++ [btick]) s = true ∧
          ∀ o ∈ optRefs s, o = opt_name.toList := by
  unfold none_is_special_value
  by_cases hd : raw_doc = ""
  · subst hd
    have h0 : ("" : String).toList = [] := rfl
    rw [h0]
    have h1 : splitSent [] = [[]] := rfl
    rw [h1]
    simp [isSubL]
  · rw [if_neg hd, List.any_eq_true]
    constructor
    · rintro ⟨s, hs, hb⟩
      rw [Bool.and_eq_true, List.all_eq_true] at hb
      exact ⟨s, hs, hb.1, fun o ho => by simpa using hb.2 o ho⟩
    · rintro ⟨s, hs, h1, h2⟩
      refine ⟨s, hs, ?_⟩
      rw [Bool.and_eq_true, List.all_eq_true]
      exact ⟨h1, fun o ho => by simpa using h2 o ho⟩

/-- Witness for C2 at a concrete input. -/
theorem none_detector_iff_witness :
    none_is_special_value "opt" "Set to :code:`none` to disable." = true :=
  (none_detector_iff "opt" "Set to :code:`none` to disable.").mpr (by decide)

/-! ## Claim C8 -/

/-- Claim C8: when an optional enrichment source is unavailable (a failed
import, modelled by `none`, or an absent lookup key, modelled by a per-name
`none` result), the lookup passes of `enrich_stub_actions` leave every
record's `doc` and `short` unchanged. -/
theorem enrich_unavailable_sources_noop :
    (∀ m : List ActionRec, enrichLookups none [] none m = m) ∧
      ∀ (f : String → Option String) (m : List ActionRec),
        (∀ r ∈ m, f (rcNameMap r.name) = none) →
          enrichLookups none [] (some f) m = m := by
  have hlaunch : ∀ m : List ActionRec, enrichLaunch none m = m := by
    intro m
    unfold enrichLaunch
    exact map_id_of_mem _ _ fun r _ => by split <;> rfl
  have hsc : ∀ m : List ActionRec, enrichShortcuts [] m = m := fun m => rfl
  constructor
  · intro m
    unfold enrichLookups enrichRc
    rw [hsc, hlaunch]
  · intro f m hf
    unfold enrichLookups enrichRc
    rw [hsc, hlaunch]
    exact map_id_of_mem _ _ fun r hr => by
      by_cases h : is_stub_doc r.doc = true
      · simp only [h, if_true, hf r hr]
      · simp only [Bool.not_eq_true] at h
        simp [h]

/-- Witness for C8 at a concrete input. -/
theorem enrich_unavailable_sources_noop_witness :
    enrichLookups none [] (some fun _ => none)
        [{ name := "copy", short := "s", doc := "See x for details." }] =
      [{ name := "copy", short := "s", doc := "See x for details." }] :=
  enrich_unavailable_sources_noop.2 (fun _ => none) _ (by simp)

/-! ## Claim C9 -/

/-- Counterexample to C9 as stated: a flag line with no accumulated
description lines but with `default=red` metadata yields a non-empty
description. -/
theorem flag_no_desc_counterexample :
    parse_options_spec "--color\ndefault=red" = [("--color", " (default: red)")] ∧
      ¬ (" (default: red)" : String) = "" := by
  constructor
  · decide
  · decide

/-- Amended claim C9: a flag line that accumulates no description lines and
carries no (non-empty) default metadata yields an entry whose description is
the empty string. -/
theorem flag_no_desc_empty (flags : String) (meta : FlagMeta)
    (h : truthy meta.defaultMeta = false) : (flushEntry flags meta []).2 = "" := by
  unfold flushEntry
  simp only [h, Bool.false_eq_true, if_false]
  decide

/-- Witness for the amended C9 at a concrete input. -/
theorem flag_no_desc_empty_witness :
    truthy (FlagMeta.mk (some "list") none (some "") none).defaultMeta = false ∧
      (flushEntry "--env" (FlagMeta.mk (some "list") none (some "") none) []).2 = "" :=
  ⟨rfl, flag_no_desc_empty "--env" _ rfl⟩

/-! ## Claim C5 -/

/-- Counterexample to C5 as stated: with choices metadata present but empty
(`choices=`), the rendered signature is not suffixed with `=...` (the claim
would force `--a=`); the code falls through to the ` (repeatable)` branch. -/
theorem flush_rendering_counterexample :
    parse_options_spec "--a\nchoices=\ntype=list" = [("--a (repeatable)", "")] ∧
      ¬ ("--a (repeatable)" : String) = "--a=" := by
  constructor
  · decide
  · decide

theorem findIdx_of_first {q : Char → Bool} {a : Char} (u : List Char) (hq : q a = true) :
    ∀ (r : List Char) (i : Nat), (∀ c ∈ r, q c = false) →
      List.findIdx? q (r ++ a :: u) i = some (i + r.length) := by
  intro r
  induction r with
  | nil =>
    intro i _
    simp [List.findIdx?_cons, hq]
  | cons c r' ih =>
    intro i hr
    have hc : q c = false := hr c (List.mem_cons_self c r')
    rw [List.cons_append, List.findIdx?_cons, hc]
    simp only [Bool.false_eq_true, if_false]
    rw [ih (i + 1) fun d hd => hr d (List.mem_cons_of_mem c hd)]
    simp only [List.length_cons]
    congr 1
    omega

theorem dropWhile_head_false {p : Char → Bool} :
    ∀ (l : List Char) (c : Char) (u : List Char), l.dropWhile p = c :: u → p c = false := by
  intro l
  induction l with
  | nil => intro c u h; simp [List.dropWhile] at h
  | cons a t ih =>
    intro c u h
    rw [List.dropWhile_cons] at h
    by_cases ha : p a = true
    · rw [if_pos ha] at h
      exact ih c u h
    · rw [if_neg ha] at h
      cases h
      simpa using ha

theorem takeWhile_append_nondot {r u : List Char} (hr : ∀ c ∈ r, ¬ c = '.') :
    (r ++ '.' :: u).takeWhile (fun c => decide (¬ c = '.')) = r := by
  rw [List.takeWhile_append_of_pos (fun a ha => by simpa using hr a ha)]
  rw [List.takeWhile_cons_of_neg (by simp)]
  simp

theorem trunc_agree (s : String) : truncLong s = specTruncate s := by
  cases s with
  | mk l =>
    have hsplit := List.takeWhile_append_dropWhile (fun c => decide (¬ c = '.')) l
    have hrdot : ∀ c ∈ l.takeWhile (fun c => decide (¬ c = '.')), ¬ c = '.' := by
      intro c hc
      simpa using List.mem_takeWhile_imp hc
    cases hdwe : l.dropWhile (fun c => decide (¬ c = '.')) with
    | nil =>
      have hall : ∀ c ∈ l, ¬ c = '.' := by
        intro c hc
        rw [← hsplit, hdwe, List.append_nil] at hc
        exact hrdot c hc
      have hdrop : l.drop (l.takeWhile (fun c => decide (¬ c = '.'))).length =
          l.dropWhile (fun c => decide (¬ c = '.')) := by
        have h2 := List.drop_left (l.takeWhile (fun c => decide (¬ c = '.')))
          (l.dropWhile (fun c => decide (¬ c = '.')))
        rw [hsplit] at h2
        exact h2
      have hm : matchFirstSentence l = none := by
        unfold matchFirstSentence
        rw [hdrop, hdwe]
        split <;> rfl
      have hf : l.findIdx? (fun c => c = '.') = none := by
        rw [List.findIdx?_eq_none_iff]
        intro x hx
        simpa using hall x hx
      unfold truncLong specTruncate
      simp only [toList_mk]
      rw [hm, hf]
      simp only [Option.getD_none]
      rw [if_neg (fun h => absurd h.2.1 (by omega))]
    | cons c u =>
      have hcdot : c = '.' := by
        have := dropWhile_head_false (p := fun c => decide (¬ c = '.')) l c u hdwe
        simpa using this
      subst hcdot
      obtain ⟨r, hr⟩ : ∃ r, l.takeWhile (fun c => decide (¬ c = '.')) = r := ⟨_, rfl⟩
      rw [hr] at hsplit hrdot
      have hlform : l = r ++ '.' :: u := by rw [← hsplit, hdwe]
      subst hlform
      have htw : (r ++ '.' :: u).takeWhile (fun c => decide (¬ c = '.')) = r :=
        takeWhile_append_nondot hrdot
      have hfIdx : (r ++ '.' :: u).findIdx? (fun c => c = '.') = some r.length := by
        have := findIdx_of_first (q := fun c => decide (c = '.')) (a := '.') u (by simp) r 0
          (fun d hd => by simpa using hrdot d hd)
        simpa using this
      have htake1 : (r ++ '.' :: u).take (r.length + 1) = r ++ ['.'] := by
        rw [List.take_append_eq_append_take, List.take_of_length_le (by omega)]
        simp
      unfold truncLong specTruncate matchFirstSentence
      simp only [toList_mk]
      rw [htw, List.drop_left, hfIdx]
      simp only [Option.getD_some]
      cases u with
      | nil =>
        have hrhs : ¬ (0 < r.length ∧ r.length + 1 < (r ++ ['.']).length ∧
            isSpaceChar ((r ++ ['.']).getD (r.length + 1) ' ') = true) := by
          intro h
          have h21 := h.2.1
          simp only [List.length_append, List.length_cons, List.length_nil] at h21
          omega
        rw [if_neg hrhs]
        split <;> first
        | rfl
        | (rename_i heq; exfalso; revert heq; split <;> simp)
      | cons d u' =>
        have hget : (r ++ '.' :: d :: u').getD (r.length + 1) ' ' = d := by
          unfold List.getD
          rw [List.get?_append_right (by omega)]
          simp
        have hlen2 : r.length + 1 < (r ++ '.' :: d :: u').length := by
          simp only [List.length_append, List.length_cons]
          omega
        rw [hget]
        by_cases hrz : r.length = 0
        · rw [if_pos hrz, if_neg (fun h => absurd h.1 (by omega))]
        · rw [if_neg hrz]
          by_cases hsp : isSpaceChar d = true
          · show (match (if ('.' : Char) = '.' ∧ isSpaceChar d = true then
                some (r ++ ['.']) else none) with
              | some t => String.mk t
              | none => String.mk (r ++ '.' :: d :: u')) = _
            rw [if_pos ⟨rfl, hsp⟩, if_pos ⟨by omega, hlen2, hsp⟩, htake1]
          · show (match (if ('.' : Char) = '.' ∧ isSpaceChar d = true then
                some (r ++ ['.']) else none) with
              | some t => String.mk t
              | none => String.mk (r ++ '.' :: d :: u')) = _
            rw [if_neg (fun h => hsp h.2), if_neg (fun h => hsp h.2.2)]

/-- Amended claim C5: for every flushed flag entry, the rendered signature is
the whitespace-collapsed synonym list joined by `", "` (computed by
`flagsOfLine` on the flag line), suffixed per `specSigSuffix` (with `=...`
only for a present and non-empty choices value, else ` (repeatable)` for
`type=list`); the description is the markup-stripped first paragraph collapsed
to one line, truncated — when longer than 120 characters and its first period
is preceded by at least one character and followed by whitespace — to the text
up to and including that first period, and suffixed per `specDefaultSuffix`
(only for a present and non-empty default value). -/
theorem flush_rendering (flags : String) (meta : FlagMeta) (ds : List String)
    (line : String) :
    flushEntry flags meta ds =
      (flags ++ specSigSuffix meta,
        (if 120 < (flatDesc ds).length then specTruncate (flatDesc ds) else flatDesc ds) ++
          specDefaultSuffix meta) ∧
      flagsOfLine line = joinSep ", " ((splitWords line.toList).map String.mk) := by
  refine ⟨?_, rfl⟩
  simp only [flushEntry]
  rw [trunc_agree]
  unfold specSigSuffix specDefaultSuffix
  simp only [Prod.mk.injEq]
  constructor
  · by_cases hc : truthy meta.choicesMeta = true
    · rw [if_pos hc, if_pos hc, String.append_assoc]
    · rw [if_neg hc, if_neg hc]
      by_cases ht : meta.typeMeta = some "list"
      · rw [if_pos ht, if_pos ht]
      · rw [if_neg ht, if_neg ht, String.append_empty]
  · by_cases hd : truthy meta.defaultMeta = true
    · rw [if_pos hd, if_pos hd]
      simp [String.append_assoc]
    · rw [if_neg hd, if_neg hd, String.append_empty]

/-- Witness for the amended C5 at a concrete input. -/
theorem flush_rendering_witness :
    flushEntry "--type" (FlagMeta.mk (some "choices") none (some "window,tab") none)
        ["The type."] =
      ("--type" ++
          specSigSuffix (FlagMeta.mk (some "choices") none (some "window,tab") none),
        (if 120 < (flatDesc ["The type."]).length then specTruncate (flatDesc ["The type."])
          else flatDesc ["The type."]) ++
          specDefaultSuffix (FlagMeta.mk (some "choices") none (some "window,tab") none)) :=
  (flush_rendering "--type" (FlagMeta.mk (some "choices") none (some "window,tab") none)
    ["The type."] "--type").1

/-! ## Claim C4 -/

/-- Claim C4: `is_stub_doc` returns false on empty text; otherwise it removes
one leading `See ... for details[.]` occurrence and returns true exactly when
the remaining trimmed text is shorter than 20 characters; in particular
`is_stub_doc "See X for details."` is true, and appending 20 or more
non-whitespace characters after the "for details" clause makes it false. -/
theorem is_stub_characterization :
    is_stub_doc "" = false ∧
      is_stub_doc "See X for details." = true ∧
      (∀ t : String, ¬ t = "" →
        (is_stub_doc t = true ↔ (trimL (stripSeeLead t.toList)).length < 20)) ∧
      ∀ s : List Char, ¬ s = [] → (∀ c ∈ s, isSpaceChar c = false) → 20 ≤ s.length →
        is_stub_doc (String.mk ("See X for details.".toList ++ s)) = false := by
  refine ⟨rfl, by decide, ?_, ?_⟩
  · intro t ht
    unfold is_stub_doc
    rw [if_neg ht]
    exact decide_eq_true_iff
  · intro s hne hns h20
    have hmk : ¬ String.mk ("See X for details.".toList ++ s) = "" := by
      intro h
      have h2 := congrArg String.toList h
      rw [toList_mk] at h2
      exact absurd (List.append_eq_nil.mp h2).2 hne
    unfold is_stub_doc
    rw [if_neg hmk]
    have hred : stripSeeLead (String.mk ("See X for details.".toList ++ s)).toList =
        s.dropWhile isSpaceChar := rfl
    rw [hred, dropWhile_eq_self_of_false hns, trimL_eq_self_of_nonspace hns]
    simpa using h20

/-- Witness for C4 at a concrete input. -/
theorem is_stub_characterization_witness :
    ¬ (List.replicate 20 'x') = [] ∧
      is_stub_doc (String.mk ("See X for details.".toList ++ List.replicate 20 'x')) =
        false :=
  ⟨by decide,
    is_stub_characterization.2.2.2 (List.replicate 20 'x') (by decide) (by decide)
      (by decide)⟩

/-! ## Claim C10 -/

theorem placeholder_not_flag {ℓ : String}
    (h : String.mk (trimL ℓ.toList) = "#placeholder_for_formatting#") :
    "--".toList.isPrefixOf ℓ.toList = false := by
  by_contra hc
  rw [Bool.not_eq_false] at hc
  obtain ⟨t, ht⟩ := List.isPrefixOf_iff_prefix.mp hc
  cases hlt : ℓ.toList with
  | nil => rw [hlt] at ht; simp at ht
  | cons c rest =>
    rw [hlt] at ht
    have hd : c = '-' := by
      have : "--".toList ++ t = c :: rest := ht
      cases this
      rfl
    subst hd
    obtain ⟨t', ht'⟩ := trimL_head_of_nonspace (c := '-') (by decide) rest
    have h2 := congrArg String.toList h
    rw [toList_mk, hlt, ht'] at h2
    cases h2

theorem stepLine_count (st : PState) (ℓ : String) :
    (stepLine st ℓ).entries.length +
        (match (stepLine st ℓ).currentFlags with | none => 0 | some _ => 1) =
      st.entries.length + (match st.currentFlags with | none => 0 | some _ => 1) +
        (if "--".toList.isPrefixOf ℓ.toList then 1 else 0) := by
  unfold stepLine
  by_cases hpl : String.mk (trimL ℓ.toList) = "#placeholder_for_formatting#"
  · rw [if_pos hpl, placeholder_not_flag hpl]
    simp
  · rw [if_neg hpl]
    by_cases hflag : "--".toList.isPrefixOf ℓ.toList = true
    · rw [if_pos hflag, if_pos hflag]
      cases hcf : st.currentFlags with
      | none => simp [hcf]
      | some f => simp [hcf]
    · rw [Bool.not_eq_true] at hflag
      rw [hflag]
      simp only [Bool.false_eq_true, if_false]
      cases hcf : st.currentFlags with
      | none => simp [hcf]
      | some f =>
        by_cases hm : isMetaLine ℓ = true
        · simp [hcf, hm]
        · rw [Bool.not_eq_true] at hm
          simp [hcf, hm]

theorem foldl_step_count : ∀ (lines : List String) (st : PState),
    (lines.foldl stepLine st).entries.length +
        (match (lines.foldl stepLine st).currentFlags with | none => 0 | some _ => 1) =
      st.entries.length + (match st.currentFlags with | none => 0 | some _ => 1) +
        (lines.filter (fun ℓ => "--".toList.isPrefixOf ℓ.toList)).length := by
  intro lines
  induction lines with
  | nil => intro st; simp
  | cons ℓ rest ih =>
    intro st
    rw [List.foldl_cons, ih (stepLine st ℓ), stepLine_count st ℓ, List.filter_cons]
    by_cases hflag : "--".toList.isPrefixOf ℓ.toList = true
    · rw [hflag]
      simp only [if_true, List.length_cons]
      omega
    · rw [Bool.not_eq_true] at hflag
      rw [hflag]
      simp only [Bool.false_eq_true, if_false]
      omega

theorem stepLine_nonflag_initial {ℓ : String}
    (h : "--".toList.isPrefixOf ℓ.toList = false) :
    stepLine ⟨[], none, {}, []⟩ ℓ = ⟨[], none, {}, []⟩ := by
  unfold stepLine
  by_cases hpl : String.mk (trimL ℓ.toList) = "#placeholder_for_formatting#"
  · rw [if_pos hpl]
  · rw [if_neg hpl, h]
    simp

/-- Claim C10: `parse_options_spec` returns exactly one entry per input line
that starts with the flag prefix `--`, and metadata or description lines
before the first flag line are discarded: folding them from the initial
parser state leaves the state unchanged. -/
theorem parse_entries_per_flag_line :
    (∀ spec : String,
        (parse_options_spec spec).length =
          (((spec.toList.splitOn '\n').map String.mk).filter
              (fun ℓ => "--".toList.isPrefixOf ℓ.toList)).length) ∧
      ∀ (pre lines : List String),
        (∀ ℓ ∈ pre, "--".toList.isPrefixOf ℓ.toList = false) →
          (pre ++ lines).foldl stepLine ⟨[], none, {}, []⟩ =
            lines.foldl stepLine ⟨[], none, {}, []⟩ := by
  constructor
  · intro spec
    unfold parse_options_spec
    by_cases hs : spec = ""
    · rw [if_pos hs, hs]
      decide
    · rw [if_neg hs]
      dsimp only
      have h := foldl_step_count ((spec.toList.splitOn '\n').map String.mk)
        ⟨[], none, {}, []⟩
      cases hcf : (((spec.toList.splitOn '\n').map String.mk).foldl stepLine
          ⟨[], none, {}, []⟩).currentFlags with
      | none =>
        rw [hcf] at h
        simp only [] at h ⊢
        simpa using h
      | some f =>
        rw [hcf] at h
        simp at h ⊢
        omega
  · intro pre lines hpre
    induction pre with
    | nil => rfl
    | cons ℓ rest ih =>
      rw [List.cons_append, List.foldl_cons,
        stepLine_nonflag_initial (hpre ℓ (List.mem_cons_self ℓ rest))]
      exact ih fun x hx => hpre x (List.mem_cons_of_mem ℓ hx)

/-- Witness for C10 at a concrete input. -/
theorem parse_entries_per_flag_line_witness :
    (∀ ℓ ∈ (["type=list", "stray description"] : List String),
        "--".toList.isPrefixOf ℓ.toList = false) ∧
      (["type=list", "stray description"] ++ ["--env", "Env vars."]).foldl stepLine
          ⟨[], none, {}, []⟩ =
        (["--env", "Env vars."] : List String).foldl stepLine ⟨[], none, {}, []⟩ :=
  ⟨by decide, parse_entries_per_flag_line.2 ["type=list", "stray description"]
    ["--env", "Env vars."] (by decide)⟩

/-! ## Claim C1 -/

theorem dedupKeep_sublist : ∀ l : List (List Char), List.Sublist (dedupKeep l) l := by
  intro l
  match l with
  | [] => exact List.Sublist.refl []
  | x :: xs =>
    rw [dedupKeep_cons]
    have hf := List.length_filter_le (fun y => decide (¬ y = x)) xs
    have h1 := dedupKeep_sublist (xs.filter (fun y => ¬ y = x))
    exact (h1.trans (List.filter_sublist xs)).cons₂ x
termination_by l => l.length
decreasing_by
  simp only [List.length_cons]
  omega

theorem dedupKeep_mem : ∀ (l : List (List Char)) (a : List Char),
    a ∈ dedupKeep l ↔ a ∈ l := by
  intro l
  match l with
  | [] => intro a; rfl
  | x :: xs =>
    intro a
    rw [dedupKeep_cons]
    have hf := List.length_filter_le (fun y => decide (¬ y = x)) xs
    have ih := dedupKeep_mem (xs.filter (fun y => ¬ y = x)) a
    simp only [List.mem_cons, ih, List.mem_filter]
    constructor
    · rintro (rfl | ⟨h1, _⟩)
      · exact Or.inl rfl
      · exact Or.inr h1
    · rintro (rfl | h1)
      · exact Or.inl rfl
      · by_cases hax : a = x
        · exact Or.inl hax
        · exact Or.inr ⟨h1, by simpa using hax⟩
termination_by l => l.length
decreasing_by
  simp only [List.length_cons]
  omega

theorem dedupKeep_nodup : ∀ l : List (List Char), (dedupKeep l).Nodup := by
  intro l
  match l with
  | [] => exact List.nodup_nil
  | x :: xs =>
    rw [dedupKeep_cons]
    have hf := List.length_filter_le (fun y => decide (¬ y = x)) xs
    have ih := dedupKeep_nodup (xs.filter (fun y => ¬ y = x))
    refine List.nodup_cons.mpr ⟨?_, ih⟩
    intro hx
    have := (dedupKeep_mem _ x).mp hx
    rw [List.mem_filter] at this
    simpa using this.2
termination_by l => l.length
decreasing_by
  all_goals simp only [List.length_cons]
  all_goals omega

/-- Claim C1: `extract_values` returns the verbatim-code tokens of the first
trigger-phrase sentence of the first paragraph, deduplicated in first-seen
order (`dedupKeep` keeps the first occurrence: it is a duplicate-free sublist
with the same members), exactly when that sentence cross-references no foreign
option identifier, the deduplicated tokens number at least 2, and every token
is shorter than 30 characters; in every other case it returns `[]`. -/
theorem extract_values_characterization (opt text : String) :
    (triggerSentence (firstParaL text.toList) = none → extract_values opt text = []) ∧
      (∀ sent, triggerSentence (firstParaL text.toList) = some sent →
        (((∀ o ∈ optRefs sent, o = opt.toList) ∧
            2 ≤ (dedupKeep (codeTokens sent)).length ∧
            (∀ v ∈ dedupKeep (codeTokens sent), v.length < 30)) →
          extract_values opt text = (dedupKeep (codeTokens sent)).map String.mk) ∧
        ((¬ ((∀ o ∈ optRefs sent, o = opt.toList) ∧
            2 ≤ (dedupKeep (codeTokens sent)).length ∧
            (∀ v ∈ dedupKeep (codeTokens sent), v.length < 30))) →
          extract_values opt text = [])) ∧
      (dedupKeep (codeTokens "x".toList)).Nodup ∧
      ∀ xs : List (List Char),
        List.Sublist (dedupKeep xs) xs ∧ (dedupKeep xs).Nodup ∧
          ∀ a, (a ∈ dedupKeep xs ↔ a ∈ xs) := by
  refine ⟨?_, ?_, dedupKeep_nodup _,
    fun xs => ⟨dedupKeep_sublist xs, dedupKeep_nodup xs, fun a => dedupKeep_mem xs a⟩⟩
  · intro hnone
    unfold extract_values
    by_cases ht : text = ""
    · rw [if_pos ht]
    · rw [if_neg ht, hnone]
  · intro sent hsent
    have htext : ¬ text = "" := by
      intro h
      rw [h] at hsent
      exact Option.noConfusion hsent
    have hmain : extract_values opt text =
        (if ∃ o ∈ optRefs sent, ¬ o = opt.toList then []
         else
           if 2 ≤ (dedupKeep (codeTokens sent)).length ∧
               ∀ v ∈ dedupKeep (codeTokens sent), v.length < 30 then
             (dedupKeep (codeTokens sent)).map String.mk
           else []) := by
      unfold extract_values
      rw [if_neg htext, hsent]
    constructor
    · rintro ⟨h1, h2, h3⟩
      rw [hmain, if_neg (by
        rintro ⟨o, ho, hno⟩
        exact hno (h1 o ho)), if_pos ⟨h2, h3⟩]
    · intro hnot
      rw [hmain]
      by_cases hforeign : ∃ o ∈ optRefs sent, ¬ o = opt.toList
      · rw [if_pos hforeign]
      · rw [if_neg hforeign]
        push_neg at hforeign
        rw [if_neg (fun hcond =>
          hnot ⟨fun o ho => hforeign o ho, hcond.1, hcond.2⟩)]

/-- Witness for C1 at a concrete input. -/
theorem extract_values_characterization_witness :
    extract_values "align" "This can be :code:`left`, :code:`center`, or :code:`right`." =
      ["left", "center", "right"] := by
  have h := ((extract_values_characterization "align"
      "This can be :code:`left`, :code:`center`, or :code:`right`.").2.1
      "This can be :code:`left`, :code:`center`, or :code:`right`.".toList
      (by decide)).1 (by decide)
  rw [h]
  decide

/-! ## Claim C6 -/

theorem mem_of_getLast?_eq : ∀ {l : List Char} {a : Char}, l.getLast? = some a → a ∈ l := by
  intro l
  induction l with
  | nil => intro a h; cases h
  | cons c t ih =>
    intro a h
    cases t with
    | nil =>
      cases h
      exact List.mem_singleton.mpr rfl
    | cons d t' =>
      rw [List.getLast?_cons_cons] at h
      exact List.mem_cons_of_mem c (ih h)

theorem contains_eq_false_of_not_mem {l : List Char} {a : Char}
    (h : ∀ c ∈ l, ¬ c = a) : l.contains a = false := by
  induction l with
  | nil => rfl
  | cons c t ih =>
    simp only [List.contains_cons, Bool.or_eq_false_iff]
    constructor
    · have := h c (List.mem_cons_self c t)
      simp [beq_eq_false_iff_ne]
      intro he
      exact absurd he.symm this
    · exact ih fun d hd => h d (List.mem_cons_of_mem c hd)

theorem getLast?_append_ne {l₁ l₂ : List Char} (h : ¬ l₂ = []) :
    (l₁ ++ l₂).getLast? = l₂.getLast? := by
  rw [List.getLast?_append]
  cases l₂ with
  | nil => exact absurd rfl h
  | cons c t =>
    have : (c :: t).getLast?.isSome = true := by
      rw [List.getLast?_isSome]
      simp
    cases hl : (c :: t).getLast? with
    | none => rw [hl] at this; simp at this
    | some y => rfl

theorem seeTail_true {ws1 rest : List Char} (hws1 : ∀ c ∈ ws1, isSpaceChar c = true)
    (hws1ne : ¬ ws1 = []) (hrne : ¬ rest = []) (hrnl : ∀ c ∈ rest, ¬ c = '\n')
    (hrh : ∀ c, rest.head? = some c → isSpaceChar c = false) :
    seeTailOk (ws1 ++ rest) = true := by
  have hlastnl : ¬ (ws1 ++ rest).getLast? = some '\n' := by
    rw [getLast?_append_ne hrne]
    intro h
    exact hrnl '\n' (mem_of_getLast?_eq h) rfl
  have htw : (ws1 ++ rest).takeWhile isSpaceChar = ws1 := by
    rw [List.takeWhile_append_of_pos hws1]
    cases hre : rest with
    | nil => exact absurd hre hrne
    | cons c t =>
      rw [List.takeWhile_cons_of_neg (by
        have := hrh c (by rw [hre]; rfl)
        simp [this])]
      simp
  unfold seeTailOk
  dsimp only
  rw [if_neg hlastnl, htw]
  rw [if_neg (fun h => hws1ne (List.length_eq_zero.mp h))]
  rw [if_neg (by
    rw [List.length_append]
    intro h
    have : rest.length = 0 := by omega
    exact hrne (List.length_eq_zero.mp this))]
  rw [List.drop_left]
  rw [contains_eq_false_of_not_mem hrnl]
  decide

theorem see_prefix_false (X : List Char) (hX : ∀ c, X.head? = some c → ¬ c = 'e') :
    ∀ pre : List Char, ¬ pre = [] →
      (∀ c, pre.getLast? = some c → isSpaceChar c = false) →
      isSubL "See".toList pre = false →
      "See".toList.isPrefixOf ((pre ++ X).dropWhile isSpaceChar) = false := by
  intro pre
  induction pre with
  | nil => intro h; exact absurd rfl h
  | cons c pre' ih =>
    intro _ hlast hsub
    have hsub' : isSubL "See".toList pre' = false := by
      have h0 : ("See".toList.isPrefixOf (c :: pre') || isSubL "See".toList pre') = false :=
        hsub
      exact (Bool.or_eq_false_iff.mp h0).2
    by_cases hc : isSpaceChar c = true
    · cases pre' with
      | nil =>
        have h1 := hlast c rfl
        rw [hc] at h1
        cases h1
      | cons d pre'' =>
        rw [List.cons_append, List.dropWhile_cons_of_pos hc]
        exact ih (by simp) (fun x hx => hlast x (by rw [List.getLast?_cons_cons, hx]))
          hsub'
    · rw [List.cons_append, List.dropWhile_cons_of_neg hc]
      by_cases hcS : c = 'S'
      · subst hcS
        have hee : (['e', 'e'].isPrefixOf (pre' ++ X)) = false := by
          cases pre' with
          | nil =>
            rw [List.nil_append]
            cases hXh : X with
            | nil => rfl
            | cons x xs =>
              have hx := hX x (by rw [hXh]; rfl)
              simp [List.isPrefixOf]
              intro h1
              exact absurd h1.symm hx
          | cons d preB =>
            by_cases hd : d = 'e'
            · subst hd
              cases preB with
              | nil =>
                rw [List.cons_append, List.nil_append]
                cases hXh : X with
                | nil => simp [List.isPrefixOf]
                | cons x xs =>
                  have hx := hX x (by rw [hXh]; rfl)
                  simp [List.isPrefixOf]
                  intro h1
                  exact absurd h1.symm hx
              | cons e preC =>
                by_cases he : e = 'e'
                · subst he
                  exfalso
                  have h2 : isSubL "See".toList ('S' :: 'e' :: 'e' :: preC) = true := by
                    have hp : "See".toList.isPrefixOf ('S' :: 'e' :: 'e' :: preC) =
                        true := by
                      show (['S', 'e', 'e'].isPrefixOf ('S' :: 'e' :: 'e' :: preC)) = true
                      simp [List.isPrefixOf]
                    unfold isSubL
                    rw [hp]
                    rfl
                  rw [h2] at hsub
                  cases hsub
                · simp [List.isPrefixOf]
                  intro h1
                  exact absurd h1.symm he
            · simp [List.isPrefixOf]
              intro h1
              exact absurd h1.symm hd
        simp only [List.isPrefixOf, hee]
        simp
      · simp [List.isPrefixOf]
        intro h1
        exact absurd h1.symm hcS

theorem matchSee_interior (X : List Char) (hX : ∀ c, X.head? = some c → ¬ c = 'e') :
    ∀ pre : List Char, ¬ pre = [] →
      (∀ c, pre.getLast? = some c → isSpaceChar c = false ∧ ¬ c = '.') →
      isSubL "See".toList pre = false →
      matchSeeHere (pre ++ X) = false := by
  intro pre hne hlast hsub
  unfold matchSeeHere
  dsimp only
  have hpref : "See".toList.isPrefixOf ((dropDot (pre ++ X)).dropWhile isSpaceChar) =
      false := by
    cases pre with
    | nil => exact absurd rfl hne
    | cons c pre' =>
      by_cases hcd : c = '.'
      · subst hcd
        have hdd : dropDot (('.' :: pre') ++ X) = pre' ++ X := by
          unfold dropDot
          rw [List.cons_append]
          simp
        rw [hdd]
        cases pre' with
        | nil =>
          exfalso
          have h1 := hlast '.' rfl
          exact h1.2 rfl
        | cons d preB =>
          exact see_prefix_false X hX (d :: preB) (by simp)
            (fun x hx => (hlast x (by rw [List.getLast?_cons_cons, hx])).1)
            (by
              have h0 : ("See".toList.isPrefixOf ('.' :: d :: preB) ||
                  isSubL "See".toList (d :: preB)) = false := hsub
              exact (Bool.or_eq_false_iff.mp h0).2)
      · have hdd : dropDot ((c :: pre') ++ X) = (c :: pre') ++ X := by
          unfold dropDot
          rw [List.cons_append]
          simp [hcd]
        rw [hdd]
        exact see_prefix_false X hX (c :: pre') (by simp)
          (fun x hx => (hlast x hx).1) hsub
  rw [hpref]
  rfl

theorem removeSee_boundary (dotStr wsStr ws1 rest : List Char)
    (hdot : dotStr = [] ∨ dotStr = ['.'])
    (hws : ∀ c ∈ wsStr, isSpaceChar c = true)
    (hws1 : ∀ c ∈ ws1, isSpaceChar c = true) (hws1ne : ¬ ws1 = [])
    (hrne : ¬ rest = []) (hrnl : ∀ c ∈ rest, ¬ c = '\n')
    (hrh : ∀ c, rest.head? = some c → isSpaceChar c = false) :
    ∀ pre : List Char,
      isSubL "See".toList pre = false →
      (∀ c, pre.getLast? = some c → isSpaceChar c = false ∧ ¬ c = '.') →
      removeSeeMatch
          (pre ++ (dotStr ++ (wsStr ++ ('S' :: 'e' :: 'e' :: (ws1 ++ rest))))) = pre := by
  have hXhead : ∀ c, (dotStr ++ (wsStr ++ ('S' :: 'e' :: 'e' :: (ws1 ++ rest)))).head? =
      some c → ¬ c = 'e' := by
    intro c hc
    rcases hdot with hd | hd
    · subst hd
      rw [List.nil_append] at hc
      cases hwse : wsStr with
      | nil =>
        rw [hwse, List.nil_append] at hc
        cases hc
        decide
      | cons w ws' =>
        rw [hwse, List.cons_append] at hc
        cases hc
        intro hce
        have h1 := hws c (by rw [hwse]; exact List.mem_cons_self c ws')
        rw [hce] at h1
        cases h1
    · subst hd
      rw [List.cons_append] at hc
      cases hc
      decide
  have hmatch : matchSeeHere (dotStr ++ (wsStr ++ ('S' :: 'e' :: 'e' :: (ws1 ++ rest)))) =
      true := by
    unfold matchSeeHere
    dsimp only
    have hdd : dropDot (dotStr ++ (wsStr ++ ('S' :: 'e' :: 'e' :: (ws1 ++ rest)))) =
        wsStr ++ ('S' :: 'e' :: 'e' :: (ws1 ++ rest)) := by
      unfold dropDot
      rcases hdot with hd | hd
      · subst hd
        rw [List.nil_append]
        cases hwse : wsStr with
        | nil => simp
        | cons w ws' =>
          rw [List.cons_append]
          have hw := hws w (by rw [hwse]; exact List.mem_cons_self w ws')
          have h1 : ¬ w = '.' := by
            intro hwd
            rw [hwd] at hw
            cases hw
          simp [h1]
      · subst hd
        rw [List.cons_append, List.nil_append]
        simp
    rw [hdd, List.dropWhile_append_of_pos hws,
      List.dropWhile_cons_of_neg (by decide)]
    have hpre3 : "See".toList.isPrefixOf ('S' :: 'e' :: 'e' :: (ws1 ++ rest)) = true := by
      show (['S', 'e', 'e'].isPrefixOf ('S' :: 'e' :: 'e' :: (ws1 ++ rest))) = true
      simp [List.isPrefixOf]
    rw [hpre3]
    have hdrop3 : ('S' :: 'e' :: 'e' :: (ws1 ++ rest)).drop 3 = ws1 ++ rest := rfl
    rw [hdrop3, seeTail_true hws1 hws1ne hrne hrnl hrh]
    rfl
  have hlastX : (dotStr ++ (wsStr ++ ('S' :: 'e' :: 'e' :: (ws1 ++ rest)))).getLast? =
      rest.getLast? := by
    rw [getLast?_append_ne (by simp), getLast?_append_ne (by simp)]
    rw [show ('S' :: 'e' :: 'e' :: (ws1 ++ rest)) = ['S', 'e', 'e'] ++ (ws1 ++ rest)
      from rfl]
    rw [getLast?_append_ne (by simp [hrne]), getLast?_append_ne hrne]
  intro pre
  induction pre with
  | nil =>
    intro _ _
    rw [List.nil_append]
    cases hXe : dotStr ++ (wsStr ++ ('S' :: 'e' :: 'e' :: (ws1 ++ rest))) with
    | nil =>
      exfalso
      have h1 := congrArg List.length hXe
      simp at h1
    | cons x xs =>
      have hmatch2 : matchSeeHere (x :: xs) = true := by rw [← hXe]; exact hmatch
      have hlast2 : ¬ (x :: xs).getLast? = some '\n' := by
        rw [← hXe, hlastX]
        intro h
        exact hrnl '\n' (mem_of_getLast?_eq h) rfl
      show (if matchSeeHere (x :: xs) = true then
          (if (x :: xs).getLast? = some '\n' then ['\n'] else [])
        else x :: removeSeeMatch xs) = []
      rw [hmatch2, if_pos rfl, if_neg hlast2]
  | cons c pre' ih =>
    intro hsub hlast
    have hm : matchSeeHere
        (c :: (pre' ++ (dotStr ++ (wsStr ++ ('S' :: 'e' :: 'e' :: (ws1 ++ rest)))))) =
          false :=
      matchSee_interior _ hXhead (c :: pre') (by simp) hlast hsub
    rw [List.cons_append]
    show (if matchSeeHere
        (c :: (pre' ++ (dotStr ++ (wsStr ++ ('S' :: 'e' :: 'e' :: (ws1 ++ rest)))))) =
          true then
        (if (c :: (pre' ++ (dotStr ++ (wsStr ++
            ('S' :: 'e' :: 'e' :: (ws1 ++ rest)))))).getLast? = some '\n' then ['\n']
          else [])
      else c :: removeSeeMatch
        (pre' ++ (dotStr ++ (wsStr ++ ('S' :: 'e' :: 'e' :: (ws1 ++ rest)))))) =
        c :: pre'
    rw [hm]
    simp only [Bool.false_eq_true, if_false]
    congr 1
    exact ih (by
      have h0 : ("See".toList.isPrefixOf (c :: pre') || isSubL "See".toList pre') =
          false := hsub
      exact (Bool.or_eq_false_iff.mp h0).2)
      (fun x hx => hlast x (by
        cases pre' with
        | nil => cases hx
        | cons d preB => rw [List.getLast?_cons_cons, hx]))

theorem map_comp_eq {α β : Type} (l : List α) (f g : α → β)
    (h : ∀ a ∈ l, f a = g a) : l.map f = l.map g := by
  induction l with
  | nil => rfl
  | cons a t ih =>
    simp only [List.map_cons, List.cons.injEq]
    exact ⟨h a (List.mem_cons_self a t), ih fun b hb => h b (List.mem_cons_of_mem a hb)⟩

theorem shorts_enrichLaunch (ls : Option String) (m : List ActionRec) :
    (enrichLaunch ls m).map (fun r => r.short) = m.map (fun r => r.short) := by
  unfold enrichLaunch
  rw [List.map_map]
  exact map_comp_eq m _ _ fun r _ => by
    simp only [Function.comp]
    split
    · cases ls with
      | none => rfl
      | some spec =>
        show (if ¬ parse_options_spec spec = [] then
            { r with doc := "Flags:\n" ++ format_flags_doc (parse_options_spec spec) }
          else r).short = r.short
        split <;> rfl
    · rfl

theorem shorts_enrichShortcuts (scm : List (String × String)) :
    ∀ m : List ActionRec,
      (enrichShortcuts scm m).map (fun r => r.short) = m.map (fun r => r.short) := by
  unfold enrichShortcuts
  induction scm with
  | nil => intro m; rfl
  | cons nl scm' ih =>
    intro m
    rw [List.foldl_cons, ih]
    rw [List.map_map]
    exact map_comp_eq m _ _ fun r _ => by
      simp only [Function.comp]
      split <;> rfl

theorem shorts_enrichRc (cfn : Option (String → Option String)) (m : List ActionRec) :
    (enrichRc cfn m).map (fun r => r.short) = m.map (fun r => r.short) := by
  unfold enrichRc
  cases cfn with
  | none => rfl
  | some f =>
    rw [List.map_map]
    exact map_comp_eq m _ _ fun r _ => by
      simp only [Function.comp]
      split
      · split <;> rfl
      · rfl

/-- Claim C6: after `enrich_stub_actions` completes, every action record's
`short` field is `stripSeeClause` of its prior value (the lookup passes never
touch `short`), and `stripSeeClause` deletes a trailing
`[.]whitespace* See whitespace+ X` reference clause while preserving the text
of the short field that precedes that trailing clause (up to the final
`.strip()`). -/
theorem short_see_clause_stripped :
    (∀ (ls : Option String) (scm : List (String × String))
        (cfn : Option (String → Option String)) (m : List ActionRec),
        (enrich_stub_actions ls scm cfn m).map (fun r => r.short) =
          m.map (fun r => stripSeeClause r.short)) ∧
      ∀ pre dotStr wsStr ws1 rest : List Char,
        isSubL "See".toList pre = false →
        (∀ c, pre.getLast? = some c → isSpaceChar c = false ∧ ¬ c = '.') →
        (dotStr = [] ∨ dotStr = ['.']) →
        (∀ c ∈ wsStr, isSpaceChar c = true) →
        (∀ c ∈ ws1, isSpaceChar c = true) → ¬ ws1 = [] →
        ¬ rest = [] → (∀ c ∈ rest, ¬ c = '\n') →
        (∀ c, rest.head? = some c → isSpaceChar c = false) →
        stripSeeClause (String.mk
            (pre ++ (dotStr ++ (wsStr ++ ("See".toList ++ (ws1 ++ rest)))))) =
          String.mk (trimL pre) := by
  constructor
  · intro ls scm cfn m
    unfold enrich_stub_actions
    rw [List.map_map]
    have h1 : (enrichLookups ls scm cfn m).map
        (((fun r => r.short) ∘ stripSeePassRec)) =
          (enrichLookups ls scm cfn m).map (fun r => stripSeeClause r.short) :=
      map_comp_eq _ _ _ fun r _ => rfl
    rw [h1]
    have h2 : ∀ X Y : List ActionRec,
        X.map (fun r => r.short) = Y.map (fun r => r.short) →
          X.map (fun r => stripSeeClause r.short) =
            Y.map (fun r => stripSeeClause r.short) := by
      intro X Y h
      have hx : X.map (fun r => stripSeeClause r.short) =
          (X.map (fun r => r.short)).map stripSeeClause := by
        rw [List.map_map]
        rfl
      have hy : Y.map (fun r => stripSeeClause r.short) =
          (Y.map (fun r => r.short)).map stripSeeClause := by
        rw [List.map_map]
        rfl
      rw [hx, hy, h]
    refine h2 _ _ ?_
    unfold enrichLookups
    rw [shorts_enrichRc, shorts_enrichShortcuts, shorts_enrichLaunch]
  · intro pre dotStr wsStr ws1 rest hsub hlast hdot hws hws1 hws1ne hrne hrnl hrh
    unfold stripSeeClause
    rw [toList_mk]
    have hrm : removeSeeMatch
        (pre ++ (dotStr ++ (wsStr ++ ("See".toList ++ (ws1 ++ rest))))) = pre :=
      removeSee_boundary dotStr wsStr ws1 rest hdot hws hws1 hws1ne hrne hrnl hrh pre
        hsub hlast
    rw [hrm]

/-- Witness for C6 at a concrete input. -/
theorem short_see_clause_stripped_witness :
    stripSeeClause (String.mk ("Copy to clipboard".toList ++
        (['.'] ++ ([' '] ++ ("See".toList ++
          ([' '] ++ "copy_to_clipboard.".toList)))))) =
      String.mk (trimL "Copy to clipboard".toList) :=
  short_see_clause_stripped.2 "Copy to clipboard".toList ['.'] [' '] [' ']
    "copy_to_clipboard.".toList (by decide) (by decide) (by decide) (by decide)
    (by decide) (by decide) (by decide) (by decide) (by decide)

/-! ## Claim C7 -/

theorem mem_of_isPrefixOf {p l : List Char} {a : Char} (h : p.isPrefixOf l = true)
    (ha : a ∈ p) : a ∈ l :=
  ((List.isPrefixOf_iff_prefix.mp h).subset) ha

theorem isSubL_iff_infix (pat : List Char) :
    ∀ l : List Char, isSubL pat l = true ↔ pat <:+: l := by
  intro l
  induction l with
  | nil =>
    unfold isSubL
    simp only [List.isEmpty_iff]
    constructor
    · rintro rfl
      exact List.infix_refl []
    · intro h
      simpa using h.sublist.length_le
  | cons c rest ih =>
    unfold isSubL
    rw [Bool.or_eq_true, List.isPrefixOf_iff_prefix, ih, List.infix_cons_iff]

theorem applySub_id (m : List Char → Option (List Char × Nat)) :
    ∀ l : List Char, (∀ s, s <:+ l → m s = none) → applySub m l = l := by
  intro l
  induction l with
  | nil => intro _; rfl
  | cons c rest ih =>
    intro h
    rw [applySub_cons, h (c :: rest) (List.suffix_refl _)]
    rw [ih fun s hs => h s (hs.trans (List.suffix_cons c rest))]

theorem matchCodeLiteral_none {s : List Char} (hbt : btick ∉ s) :
    matchCodeLiteral s = none := by
  unfold matchCodeLiteral
  have h1 : (":code:".toList ++ [btick]).isPrefixOf s = false := by
    by_contra hc
    rw [Bool.not_eq_false] at hc
    exact hbt (mem_of_isPrefixOf hc (by simp))
  have h2 : (":literal:".toList ++ [btick]).isPrefixOf s = false := by
    by_contra hc
    rw [Bool.not_eq_false] at hc
    exact hbt (mem_of_isPrefixOf hc (by simp))
  rw [h1, h2]
  simp

theorem mem_of_drop {l : List Char} {n : Nat} {a : Char} (h : a ∈ l.drop n) : a ∈ l :=
  (List.drop_sublist n l).subset h

theorem matchRoleTarget_none {s : List Char} (hbt : btick ∉ s) :
    matchRoleTarget s = none := by
  unfold matchRoleTarget
  cases s with
  | nil => rfl
  | cons c0 rest =>
    dsimp only
    by_cases hc0 : c0 = ':'
    · rw [if_pos hc0]
      by_cases hrole : (rest.takeWhile Char.isLower).length = 0
      · rw [if_pos hrole]
      · rw [if_neg hrole]
        cases hd : rest.drop (rest.takeWhile Char.isLower).length with
        | nil => rfl
        | cons c1 t1 =>
          cases t1 with
          | nil => rfl
          | cons c2 t =>
            dsimp only
            rw [if_neg (by
              rintro ⟨_, hc2⟩
              have hm : btick ∈ rest.drop (rest.takeWhile Char.isLower).length := by
                rw [hd]
                exact List.mem_cons.mpr (Or.inr (List.mem_cons.mpr (Or.inl hc2.symm)))
              exact hbt (List.mem_cons_of_mem c0 (mem_of_drop hm)))]
    · rw [if_neg hc0]

theorem matchRole_none {s : List Char} (hbt : btick ∉ s) : matchRole s = none := by
  unfold matchRole
  cases s with
  | nil => rfl
  | cons c0 rest =>
    dsimp only
    by_cases hc0 : c0 = ':'
    · rw [if_pos hc0]
      by_cases hrole : (rest.takeWhile Char.isLower).length = 0
      · rw [if_pos hrole]
      · rw [if_neg hrole]
        cases hd : rest.drop (rest.takeWhile Char.isLower).length with
        | nil => rfl
        | cons c1 t1 =>
          cases t1 with
          | nil => rfl
          | cons c2 t =>
            dsimp only
            rw [if_neg (by
              rintro ⟨_, hc2⟩
              have hm : btick ∈ rest.drop (rest.takeWhile Char.isLower).length := by
                rw [hd]
                exact List.mem_cons.mpr (Or.inr (List.mem_cons.mpr (Or.inl hc2.symm)))
              exact hbt (List.mem_cons_of_mem c0 (mem_of_drop hm)))]
    · rw [if_neg hc0]

theorem matchAngleTarget_none {s : List Char} (hlt : '<' ∉ s) :
    matchAngleTarget s = none := by
  unfold matchAngleTarget
  dsimp only
  cases hd : s.drop (s.takeWhile isSpaceChar).length with
  | nil => rfl
  | cons c0 u =>
    dsimp only
    rw [if_neg (by
      intro hc0
      have hm : '<' ∈ s.drop (s.takeWhile isSpaceChar).length := by
        rw [hd]
        exact List.mem_cons.mpr (Or.inl hc0.symm)
      exact hlt (mem_of_drop hm))]

theorem matchDoubleBacktick_none {s : List Char} (hbt : btick ∉ s) :
    matchDoubleBacktick s = none := by
  unfold matchDoubleBacktick
  cases s with
  | nil => rfl
  | cons a t1 =>
    cases t1 with
    | nil => rfl
    | cons b t =>
      dsimp only
      rw [if_neg (by
        rintro ⟨ha, _⟩
        exact hbt (List.mem_cons.mpr (Or.inl ha.symm)))]

theorem matchRefUnderscore_none {s : List Char} (hbt : btick ∉ s) :
    matchRefUnderscore s = none := by
  unfold matchRefUnderscore
  cases s with
  | nil => rfl
  | cons a t =>
    dsimp only
    rw [if_neg (by
      intro ha
      exact hbt (List.mem_cons.mpr (Or.inl ha.symm)))]

theorem matchNoteDir_none {s : List Char} (hcc : ¬ [':', ':'] <:+: s) :
    matchNoteDir s = none := by
  unfold matchNoteDir
  rw [if_neg (by
    intro hp
    exact hcc (List.IsInfix.trans (by decide)
      (List.isPrefixOf_iff_prefix.mp hp).isInfix))]

theorem matchVersionAdded_none {s : List Char} (hcc : ¬ [':', ':'] <:+: s) :
    matchVersionAdded s = none := by
  unfold matchVersionAdded
  rw [if_neg (by
    intro hp
    exact hcc (List.IsInfix.trans (by decide)
      (List.isPrefixOf_iff_prefix.mp hp).isInfix))]

theorem matchCodeBlockDir_none {s : List Char} (hcc : ¬ [':', ':'] <:+: s) :
    matchCodeBlockDir s = none := by
  unfold matchCodeBlockDir
  rw [if_neg (by
    intro hp
    exact hcc (List.IsInfix.trans (by decide)
      (List.isPrefixOf_iff_prefix.mp hp).isInfix))]

theorem matchSubRef_none {s : List Char} (hbar : '|' ∉ s) : matchSubRef s = none := by
  unfold matchSubRef
  cases s with
  | nil => rfl
  | cons a t =>
    dsimp only
    rw [if_neg (by
      intro ha
      exact hbar (List.mem_cons.mpr (Or.inl ha.symm)))]

theorem matchDcolon_none {s : List Char} (hcc : ¬ [':', ':'] <:+: s) :
    matchDcolon s = none := by
  unfold matchDcolon
  cases s with
  | nil => rfl
  | cons c t1 =>
    cases t1 with
    | nil => rfl
    | cons d t2 =>
      cases t2 with
      | nil => rfl
      | cons e t =>
        dsimp only
        rw [if_neg (by
          rintro ⟨_, hd, he⟩
          subst hd
          subst he
          exact hcc ⟨[c], t, rfl⟩)]

/-- Claim C7: `strip_rst` is the identity on markup-free text (no backtick,
no `<`, no `|`, no `::`, already trimmed), hence plain text is a fixed point
and `strip_rst` is idempotent on such text. -/
theorem strip_rst_plain_fixed (s : String) (h : markupFreeB s.toList = true) :
    strip_rst s = s ∧ strip_rst (strip_rst s) = strip_rst s := by
  unfold markupFreeB at h
  rw [Bool.and_eq_true, Bool.and_eq_true, Bool.and_eq_true] at h
  obtain ⟨⟨⟨hall, hcc⟩, hlt⟩, hrt⟩ := h
  rw [List.all_eq_true] at hall
  have hbt : btick ∉ s.toList := fun hm => by
    have := of_decide_eq_true (hall _ hm)
    exact this.1 rfl
  have hlt2 : '<' ∉ s.toList := fun hm => by
    have := of_decide_eq_true (hall _ hm)
    exact this.2.1 rfl
  have hbar : '|' ∉ s.toList := fun hm => by
    have := of_decide_eq_true (hall _ hm)
    exact this.2.2 rfl
  have hccP : ¬ [':', ':'] <:+: s.toList := by
    intro hinf
    rw [← isSubL_iff_infix] at hinf
    simp only [decide_not] at hcc
    rw [hinf] at hcc
    simp at hcc
  have hltrim : ltrim s.toList = s.toList := of_decide_eq_true hlt
  have hrtrim : rtrim s.toList = s.toList := of_decide_eq_true hrt
  have hmemsub : ∀ t : List Char, t <:+ s.toList → ∀ {a : Char}, a ∈ t → a ∈ s.toList :=
    fun t ht _ ha => ht.sublist.subset ha
  have hccsub : ∀ t : List Char, t <:+ s.toList → ¬ [':', ':'] <:+: t :=
    fun t ht hinf => hccP (hinf.trans ht.isInfix)
  have hfix : stripRstL s.toList = s.toList := by
    unfold stripRstL
    rw [applySub_id _ _ fun t ht => matchCodeLiteral_none fun hm => hbt (hmemsub t ht hm)]
    rw [applySub_id _ _ fun t ht => matchRoleTarget_none fun hm => hbt (hmemsub t ht hm)]
    rw [applySub_id _ _ fun t ht => matchRole_none fun hm => hbt (hmemsub t ht hm)]
    rw [applySub_id _ _ fun t ht => matchAngleTarget_none fun hm => hlt2 (hmemsub t ht hm)]
    rw [applySub_id _ _ fun t ht =>
      matchDoubleBacktick_none fun hm => hbt (hmemsub t ht hm)]
    rw [applySub_id _ _ fun t ht =>
      matchRefUnderscore_none fun hm => hbt (hmemsub t ht hm)]
    rw [applySub_id _ _ fun t ht => matchNoteDir_none (hccsub t ht)]
    rw [applySub_id _ _ fun t ht => matchVersionAdded_none (hccsub t ht)]
    rw [applySub_id _ _ fun t ht => matchCodeBlockDir_none (hccsub t ht)]
    rw [applySub_id _ _ fun t ht => matchSubRef_none fun hm => hbar (hmemsub t ht hm)]
    rw [applySub_id _ _ fun t ht => matchDcolon_none (hccsub t ht)]
    unfold trimL
    rw [hrtrim, hltrim]
  have hone : strip_rst s = s := by
    unfold strip_rst
    by_cases hs : s = ""
    · rw [if_pos hs, hs]
    · rw [if_neg hs, hfix, mk_toList]
  exact ⟨hone, by rw [hone, hone]⟩

/-- Witness for C7 at a concrete input. -/
theorem strip_rst_plain_fixed_witness :
    markupFreeB "plain text stays fixed.".toList = true ∧
      strip_rst "plain text stays fixed." = "plain text stays fixed." :=
  ⟨by decide, (strip_rst_plain_fixed "plain text stays fixed." (by decide)).1⟩

/-! ## Claim C3 -/

theorem drop_len_takeWhile (p : Char → Bool) (l : List Char) :
    l.drop (l.takeWhile p).length = l.dropWhile p := by
  have h := List.drop_left (l.takeWhile p) (l.dropWhile p)
  rw [List.takeWhile_append_dropWhile] at h
  exact h

theorem takeWhile_append_all {p : Char → Bool} {l₁ : List Char} (l₂ : List Char)
    (h : ∀ c ∈ l₁, p c = true) :
    (l₁ ++ l₂).takeWhile p = l₁ ++ l₂.takeWhile p := by
  induction l₁ with
  | nil => rfl
  | cons a t ih =>
    rw [List.cons_append, List.takeWhile_cons_of_pos (h a (List.mem_cons_self a t)),
      ih fun c hc => h c (List.mem_cons_of_mem a hc), List.cons_append]

theorem dropWhile_append_all {p : Char → Bool} {l₁ : List Char} (l₂ : List Char)
    (h : ∀ c ∈ l₁, p c = true) :
    (l₁ ++ l₂).dropWhile p = l₂.dropWhile p := by
  induction l₁ with
  | nil => rfl
  | cons a t ih =>
    rw [List.cons_append, List.dropWhile_cons_of_pos (h a (List.mem_cons_self a t)),
      ih fun c hc => h c (List.mem_cons_of_mem a hc)]

theorem dropWhile_append_head {p : Char → Bool} {l₁ : List Char} {d : Char}
    {ds : List Char} (l₂ : List Char) (h : l₁.dropWhile p = d :: ds) :
    (l₁ ++ l₂).dropWhile p = d :: (ds ++ l₂) := by
  rw [List.dropWhile_append, if_neg (by rw [h]; simp), h, List.cons_append]

theorem rtrim_nil_of_all {l : List Char} (h : ∀ c ∈ l, isSpaceChar c = true) :
    rtrim l = [] := by
  unfold rtrim
  rw [List.dropWhile_eq_nil_iff.mpr fun c hc => h c (List.mem_reverse.mp hc)]
  rfl

theorem rtrim_cons_nonspace {c : Char} {l : List Char} (h : isSpaceChar c = false) :
    rtrim (c :: l) = c :: rtrim l := by
  unfold rtrim
  rw [List.reverse_cons, List.dropWhile_append]
  by_cases he : l.reverse.dropWhile isSpaceChar = []
  · rw [if_pos (by rw [he]; rfl), List.dropWhile_cons_of_neg (by simp [h]), he]
    rfl
  · rw [if_neg (by simpa using he), List.reverse_append]
    rfl

theorem rtrim_cons_ne_nil {c : Char} {l : List Char} (h : ¬ rtrim l = []) :
    rtrim (c :: l) = c :: rtrim l := by
  have he : ¬ l.reverse.dropWhile isSpaceChar = [] := by
    intro h0
    exact h (by unfold rtrim; rw [h0]; rfl)
  unfold rtrim
  rw [List.reverse_cons, List.dropWhile_append, if_neg (by simpa using he),
    List.reverse_append]
  rfl

theorem dropWhile_dropWhile_self (p : Char → Bool) (l : List Char) :
    (l.dropWhile p).dropWhile p = l.dropWhile p := by
  cases h : l.dropWhile p with
  | nil => rfl
  | cons d ds =>
    exact List.dropWhile_cons_of_neg (by
      rw [dropWhile_head_false l d ds h]
      exact Bool.false_ne_true)

theorem rtrim_rtrim (l : List Char) : rtrim (rtrim l) = rtrim l := by
  unfold rtrim
  rw [List.reverse_reverse, dropWhile_dropWhile_self]

theorem suffix_cons_unique {a : Char} {u l₂ : List Char} :
    ∀ l₁ : List Char, a ∉ l₁ → a ∉ l₂ → (a :: u) <:+ (l₁ ++ a :: l₂) → u = l₂ := by
  intro l₁
  induction l₁ with
  | nil =>
    intro _ h2 hs
    rw [List.nil_append] at hs
    rcases List.suffix_cons_iff.mp hs with h | h
    · exact (List.cons_eq_cons.mp h).2
    · exact absurd (h.sublist.subset (List.mem_cons_self a u)) h2
  | cons x t ih =>
    intro h1 h2 hs
    rw [List.cons_append] at hs
    rcases List.suffix_cons_iff.mp hs with h | h
    · exact absurd (List.mem_cons.mpr (Or.inl (List.cons_eq_cons.mp h).1)) h1
    · exact ih (fun hm => h1 (List.mem_cons_of_mem x hm)) h2 h

theorem infix_pair_append {a b : Char} {l₂ : List Char} :
    ∀ l₁ : List Char, [a, b] <:+: (l₁ ++ l₂) →
      [a, b] <:+: l₁ ∨ [a, b] <:+: l₂ ∨ (l₁.getLast? = some a ∧ l₂.head? = some b) := by
  intro l₁
  induction l₁ with
  | nil =>
    intro h
    rw [List.nil_append] at h
    exact Or.inr (Or.inl h)
  | cons x t ih =>
    intro h
    rw [List.cons_append, List.infix_cons_iff] at h
    rcases h with h | h
    · rw [List.cons_prefix_cons] at h
      obtain ⟨hax, hb⟩ := h
      cases t with
      | nil =>
        rw [List.nil_append] at hb
        refine Or.inr (Or.inr ⟨?_, ?_⟩)
        · rw [show ([x] : List Char).getLast? = some x from rfl, hax]
        · rcases hb with ⟨s, hs⟩
          rw [← hs]
          rfl
      | cons y t2 =>
        rw [List.cons_append, List.cons_prefix_cons] at hb
        obtain ⟨hby, _⟩ := hb
        exact Or.inl ⟨[], t2, by
          rw [hax, hby]
          rfl⟩
    · rcases ih h with h2 | h2 | h2
      · exact Or.inl (List.infix_cons_iff.mpr (Or.inr h2))
      · exact Or.inr (Or.inl h2)
      · obtain ⟨hg, hh⟩ := h2
        refine Or.inr (Or.inr ⟨?_, hh⟩)
        have ht : ¬ t = [] := by
          intro h0
          rw [h0] at hg
          simp at hg
        rw [show (x :: t : List Char) = [x] ++ t from rfl, getLast?_append_ne ht, hg]

theorem applySub_cons_none {m : List Char → Option (List Char × Nat)} {c : Char}
    {rest : List Char} (h : m (c :: rest) = none) :
    applySub m (c :: rest) = c :: applySub m rest := by
  rw [applySub_cons, h]

theorem applySub_cons_all {m : List Char → Option (List Char × Nat)} {c : Char}
    {rest rep : List Char} {n : Nat} (h : m (c :: rest) = some (rep, n))
    (hn : rest.length ≤ n - 1) : applySub m (c :: rest) = rep := by
  rw [applySub_cons, h]
  show rep ++ applySub m (rest.drop (n - 1)) = rep
  rw [List.drop_eq_nil_of_le hn]
  show rep ++ ([] : List Char) = rep
  rw [List.append_nil]

theorem matchAngle_none_nilcase {l : List Char} (h : l.dropWhile isSpaceChar = []) :
    matchAngleTarget l = none := by
  unfold matchAngleTarget
  dsimp only
  rw [drop_len_takeWhile, h]

theorem matchAngle_none_headcase {l : List Char} {d : Char} {ds : List Char}
    (h : l.dropWhile isSpaceChar = d :: ds) (hd : ¬ d = '<') :
    matchAngleTarget l = none := by
  unfold matchAngleTarget
  dsimp only
  rw [drop_len_takeWhile, h]
  dsimp only
  rw [if_neg hd]

/-- Rule 4 fires on `spaces <thead·ttail>` when the target starts in `[a-z@/]`,
all its characters are target-class, and it is not scheme-prefixed; it consumes
the whole text and replaces it by nothing. -/
theorem matchAngle_full {thead : Char} {ttail : List Char} (body : List Char)
    (hsp : ∀ c ∈ body, isSpaceChar c = true)
    (hhd : (thead.isLower || thead = '@' || thead = '/') = true)
    (hall : ∀ c ∈ ttail, isTargetChar c = true)
    (hURL : ("http://".toList.isPrefixOf ((thead :: ttail) ++ ['>']) ||
        "https://".toList.isPrefixOf ((thead :: ttail) ++ ['>'])) = false) :
    matchAngleTarget (body ++ ' ' :: '<' :: ((thead :: ttail) ++ ['>'])) =
      some ([], body.length + ttail.length + 4) := by
  unfold matchAngleTarget
  dsimp only
  rw [drop_len_takeWhile, dropWhile_append_all _ hsp,
    List.dropWhile_cons_of_pos (by decide), List.dropWhile_cons_of_neg (by decide)]
  dsimp only
  rw [if_pos rfl, if_neg (by rw [hURL]; exact Bool.false_ne_true)]
  dsimp only [List.cons_append]
  rw [if_pos hhd]
  rw [takeWhile_append_all _ hall, List.takeWhile_cons_of_neg (by decide),
    List.append_nil, List.drop_left]
  dsimp only
  rw [if_pos rfl]
  rw [takeWhile_append_all _ hsp, List.takeWhile_cons_of_pos (by decide),
    List.takeWhile_cons_of_neg (by decide)]
  have hlen : (body ++ ' ' :: ([] : List Char)).length + 2 + ttail.length + 1 =
      body.length + ttail.length + 4 := by
    simp only [List.length_append, List.length_cons, List.length_nil]
    omega
  rw [hlen]

/-- Scanning `body <target>` with rule 4, a class-conforming non-URL target is
deleted together with the whitespace before it: the scan leaves `rtrim body`. -/
theorem applySub_angle_delete {thead : Char} {ttail : List Char}
    (hhd : (thead.isLower || thead = '@' || thead = '/') = true)
    (hall : ∀ c ∈ ttail, isTargetChar c = true)
    (hURL : ("http://".toList.isPrefixOf ((thead :: ttail) ++ ['>']) ||
        "https://".toList.isPrefixOf ((thead :: ttail) ++ ['>'])) = false) :
    ∀ body : List Char, '<' ∉ body →
      applySub matchAngleTarget (body ++ ' ' :: '<' :: ((thead :: ttail) ++ ['>'])) =
        rtrim body := by
  intro body
  induction body with
  | nil =>
    intro _
    rw [List.nil_append]
    rw [applySub_cons_all
      (by
        have hm := matchAngle_full ([] : List Char)
          (fun c hc => absurd hc (List.not_mem_nil c)) hhd hall hURL
        rw [List.nil_append] at hm
        exact hm)
      (by simp only [List.length_cons, List.length_append, List.length_nil]; omega)]
    rfl
  | cons c body2 ih =>
    intro hnotin
    have hnotin2 : '<' ∉ body2 := fun hm => hnotin (List.mem_cons_of_mem c hm)
    by_cases hsp : ∀ x ∈ c :: body2, isSpaceChar x = true
    · rw [List.cons_append]
      rw [applySub_cons_all
        (by
          have hm := matchAngle_full (c :: body2) hsp hhd hall hURL
          rw [List.cons_append] at hm
          exact hm)
        (by simp only [List.length_cons, List.length_append, List.length_nil]; omega)]
      rw [rtrim_nil_of_all hsp]
    · push_neg at hsp
      obtain ⟨d0, hd0mem, hd0t⟩ := hsp
      have hd0 : isSpaceChar d0 = false := by simpa using hd0t
      cases hdw : (c :: body2).dropWhile isSpaceChar with
      | nil =>
        rw [List.dropWhile_eq_nil_iff] at hdw
        have := hdw d0 hd0mem
        rw [hd0] at this
        exact absurd this Bool.false_ne_true
      | cons d ds =>
        have hdns : isSpaceChar d = false := dropWhile_head_false _ _ _ hdw
        have hdmem : d ∈ c :: body2 :=
          (List.dropWhile_suffix isSpaceChar).sublist.subset
            (by rw [hdw]; exact List.mem_cons_self d ds)
        have hdlt : ¬ d = '<' := fun he => hnotin (he ▸ hdmem)
        have hdw2 := dropWhile_append_head
          (' ' :: '<' :: ((thead :: ttail) ++ ['>'])) hdw
        rw [List.cons_append] at hdw2
        rw [List.cons_append, applySub_cons_none (matchAngle_none_headcase hdw2 hdlt),
          ih hnotin2]
        by_cases hc : isSpaceChar c = true
        · have hd0b : d0 ∈ body2 := by
            rcases List.mem_cons.mp hd0mem with h | h
            · rw [h, hc] at hd0
              simp at hd0
            · exact h
          rw [rtrim_cons_ne_nil (rtrim_ne_nil_of_mem hd0b hd0)]
        · rw [Bool.not_eq_true] at hc
          rw [rtrim_cons_nonspace hc]

/-- With a URL-shaped target the negative lookahead blocks rule 4 at the only
`<` of the text, so the matcher fails at every scan position. -/
theorem matchAngle_url_none {body tgt : List Char}
    (hltb : '<' ∉ body) (hltt : '<' ∉ tgt)
    (hURL : ("http://".toList.isPrefixOf (tgt ++ ['>']) ||
        "https://".toList.isPrefixOf (tgt ++ ['>'])) = true) :
    ∀ s, s <:+ (body ++ ' ' :: '<' :: (tgt ++ ['>'])) → matchAngleTarget s = none := by
  intro s hs
  cases hdw : s.dropWhile isSpaceChar with
  | nil => exact matchAngle_none_nilcase hdw
  | cons c0 u =>
    by_cases hc0 : c0 = '<'
    · subst hc0
      have hsuf : ('<' :: u) <:+ (body ++ ' ' :: '<' :: (tgt ++ ['>'])) := by
        have h1 : ('<' :: u) <:+ s := by
          rw [← hdw]
          exact List.dropWhile_suffix isSpaceChar
        exact h1.trans hs
      have hb2 : '<' ∉ body ++ [' '] := by
        intro hm
        rcases List.mem_append.mp hm with h | h
        · exact hltb h
        · rw [List.mem_singleton] at h
          exact absurd h (by decide)
      have ht2 : '<' ∉ tgt ++ ['>'] := by
        intro hm
        rcases List.mem_append.mp hm with h | h
        · exact hltt h
        · rw [List.mem_singleton] at h
          exact absurd h (by decide)
      have hu : u = tgt ++ ['>'] := by
        apply suffix_cons_unique (body ++ [' ']) hb2 ht2
        rw [List.append_assoc]
        exact hsuf
      subst hu
      unfold matchAngleTarget
      dsimp only
      rw [drop_len_takeWhile, hdw]
      dsimp only
      rw [if_pos rfl, if_pos hURL]
    · exact matchAngle_none_headcase hdw hc0

/-- Counterexample to claim C3 as stated: the target `Foo` is not URL-shaped
(it does not start with `http://` or `https://`), yet `strip_rst` does not
delete ` <Foo>` — rule 4 additionally requires the target to start with a
lowercase letter, `@` or `/`. -/
theorem strip_rst_angle_counterexample :
    ("http://".toList.isPrefixOf "Foo".toList = false ∧
      "https://".toList.isPrefixOf "Foo".toList = false) ∧
    strip_rst ("text" ++ " <" ++ "Foo" ++ ">") = "text <Foo>" ∧
    ¬ strip_rst ("text" ++ " <" ++ "Foo" ++ ">") = "text" := by
  refine ⟨⟨rfl, rfl⟩, ?_, ?_⟩
  · decide
  · decide

/-- Claim C3 (corrected): on a text of the shape `body <target>` whose body is
free of the other markup triggers, rule 4 of `strip_rst` deletes the bracketed
target and the whitespace before it when the target is non-URL AND
class-conforming — it starts with a lowercase letter, `@` or `/`, and all its
characters are drawn from `[\w. @+=/:-]` — leaving the stripped body; a
URL-shaped target (starting with `http://` or `https://`) is preserved
verbatim, up to the final outer strip.  The original claim, which promised
deletion for EVERY non-URL target, is refuted by
`strip_rst_angle_counterexample`. -/
theorem strip_rst_angle_target (body tgt : String)
    (hbt : btick ∉ body.toList) (hlt : '<' ∉ body.toList)
    (hbar : '|' ∉ body.toList) (hcc : ¬ [':', ':'] <:+: body.toList) :
    ((∃ thead ttail, tgt.toList = thead :: ttail ∧
        (thead.isLower || thead = '@' || thead = '/') = true) →
      (∀ c ∈ tgt.toList, isTargetChar c = true) →
      "http://".toList.isPrefixOf tgt.toList = false →
      "https://".toList.isPrefixOf tgt.toList = false →
      strip_rst (body ++ " <" ++ tgt ++ ">") = String.mk (trimL body.toList)) ∧
    (btick ∉ tgt.toList → '|' ∉ tgt.toList → '<' ∉ tgt.toList →
      ¬ [':', ':'] <:+: tgt.toList →
      ("http://".toList.isPrefixOf tgt.toList = true ∨
        "https://".toList.isPrefixOf tgt.toList = true) →
      strip_rst (body ++ " <" ++ tgt ++ ">") =
        String.mk (trimL (body ++ " <" ++ tgt ++ ">").toList)) := by
  have htl : (body ++ " <" ++ tgt ++ ">").toList =
      body.toList ++ ' ' :: '<' :: (tgt.toList ++ ['>']) := by
    simp only [String.toList, String.data_append, List.append_assoc]
    rfl
  have hne : ¬ (body ++ " <" ++ tgt ++ ">") = "" := by
    intro he
    have h0 := congrArg String.toList he
    rw [htl, show ("" : String).toList = [] from rfl] at h0
    simp at h0
  constructor
  · rintro ⟨thead, ttail, htgt, hhd⟩ hall hp1 hp2
    have hk1 : "http://".toList.isPrefixOf (tgt.toList ++ ['>']) = false := by
      by_contra hk
      rw [Bool.not_eq_false, List.isPrefixOf_iff_prefix, List.prefix_concat_iff] at hk
      rcases hk with h | h
      · have : '>' ∈ "http://".toList := by
          rw [h]
          exact List.mem_append.mpr (Or.inr (List.mem_singleton.mpr rfl))
        exact absurd this (by decide)
      · rw [← List.isPrefixOf_iff_prefix] at h
        rw [h] at hp1
        exact Bool.noConfusion hp1
    have hk2 : "https://".toList.isPrefixOf (tgt.toList ++ ['>']) = false := by
      by_contra hk
      rw [Bool.not_eq_false, List.isPrefixOf_iff_prefix, List.prefix_concat_iff] at hk
      rcases hk with h | h
      · have : '>' ∈ "https://".toList := by
          rw [h]
          exact List.mem_append.mpr (Or.inr (List.mem_singleton.mpr rfl))
        exact absurd this (by decide)
      · rw [← List.isPrefixOf_iff_prefix] at h
        rw [h] at hp2
        exact Bool.noConfusion hp2
    have hbtt : btick ∉ tgt.toList := fun hm => by
      have h2 := hall _ hm
      rw [show isTargetChar btick = false from by decide] at h2
      exact Bool.false_ne_true h2
    have hURL : ("http://".toList.isPrefixOf ((thead :: ttail) ++ ['>']) ||
        "https://".toList.isPrefixOf ((thead :: ttail) ++ ['>'])) = false := by
      rw [← htgt, hk1, hk2]
      rfl
    have hallt : ∀ c ∈ ttail, isTargetChar c = true := fun c hc =>
      hall c (by rw [htgt]; exact List.mem_cons_of_mem thead hc)
    have hbtF : btick ∉ body.toList ++ ' ' :: '<' :: (tgt.toList ++ ['>']) := by
      intro hm
      rcases List.mem_append.mp hm with h | h
      · exact hbt h
      · rcases List.mem_cons.mp h with h | h
        · exact absurd h (by decide)
        · rcases List.mem_cons.mp h with h | h
          · exact absurd h (by decide)
          · rcases List.mem_append.mp h with h | h
            · exact hbtt h
            · rw [List.mem_singleton] at h
              exact absurd h (by decide)
    unfold strip_rst
    rw [if_neg hne]
    unfold stripRstL
    rw [htl]
    rw [applySub_id _ _ fun t ht => matchCodeLiteral_none fun hm => hbtF (ht.sublist.subset hm)]
    rw [applySub_id _ _ fun t ht => matchRoleTarget_none fun hm => hbtF (ht.sublist.subset hm)]
    rw [applySub_id _ _ fun t ht => matchRole_none fun hm => hbtF (ht.sublist.subset hm)]
    rw [show body.toList ++ ' ' :: '<' :: (tgt.toList ++ ['>']) =
        body.toList ++ ' ' :: '<' :: ((thead :: ttail) ++ ['>']) from by rw [htgt]]
    rw [applySub_angle_delete hhd hallt hURL body.toList hlt]
    have hsub : ∀ {a : Char}, a ∈ rtrim body.toList → a ∈ body.toList :=
      fun ha => (rtrim_isPrefix body.toList).sublist.subset ha
    have hccr : ∀ t : List Char, t <:+ rtrim body.toList → ¬ [':', ':'] <:+: t :=
      fun t ht hinf =>
        hcc ((hinf.trans ht.isInfix).trans (rtrim_isPrefix body.toList).isInfix)
    rw [applySub_id _ _ fun t ht =>
      matchDoubleBacktick_none fun hm => hbt (hsub (ht.sublist.subset hm))]
    rw [applySub_id _ _ fun t ht =>
      matchRefUnderscore_none fun hm => hbt (hsub (ht.sublist.subset hm))]
    rw [applySub_id _ _ fun t ht => matchNoteDir_none (hccr t ht)]
    rw [applySub_id _ _ fun t ht => matchVersionAdded_none (hccr t ht)]
    rw [applySub_id _ _ fun t ht => matchCodeBlockDir_none (hccr t ht)]
    rw [applySub_id _ _ fun t ht =>
      matchSubRef_none fun hm => hbar (hsub (ht.sublist.subset hm))]
    rw [applySub_id _ _ fun t ht => matchDcolon_none (hccr t ht)]
    unfold trimL
    rw [rtrim_rtrim]
  · intro hbtt hbart hltt hcct hor
    have hURL : ("http://".toList.isPrefixOf (tgt.toList ++ ['>']) ||
        "https://".toList.isPrefixOf (tgt.toList ++ ['>'])) = true := by
      rw [Bool.or_eq_true]
      rcases hor with h | h
      · left
        rw [List.isPrefixOf_iff_prefix] at h ⊢
        exact h.trans (List.prefix_append _ _)
      · right
        rw [List.isPrefixOf_iff_prefix] at h ⊢
        exact h.trans (List.prefix_append _ _)
    have hbtF : btick ∉ body.toList ++ ' ' :: '<' :: (tgt.toList ++ ['>']) := by
      intro hm
      rcases List.mem_append.mp hm with h | h
      · exact hbt h
      · rcases List.mem_cons.mp h with h | h
        · exact absurd h (by decide)
        · rcases List.mem_cons.mp h with h | h
          · exact absurd h (by decide)
          · rcases List.mem_append.mp h with h | h
            · exact hbtt h
            · rw [List.mem_singleton] at h
              exact absurd h (by decide)
    have hbarF : '|' ∉ body.toList ++ ' ' :: '<' :: (tgt.toList ++ ['>']) := by
      intro hm
      rcases List.mem_append.mp hm with h | h
      · exact hbar h
      · rcases List.mem_cons.mp h with h | h
        · exact absurd h (by decide)
        · rcases List.mem_cons.mp h with h | h
          · exact absurd h (by decide)
          · rcases List.mem_append.mp h with h | h
            · exact hbart h
            · rw [List.mem_singleton] at h
              exact absurd h (by decide)
    have hccF : ¬ [':', ':'] <:+: (body.toList ++ ' ' :: '<' :: (tgt.toList ++ ['>'])) := by
      intro hinf
      rcases infix_pair_append _ hinf with h | h | h
      · exact hcc h
      · rw [List.infix_cons_iff] at h
        rcases h with h | h
        · rw [List.cons_prefix_cons] at h
          exact absurd h.1 (by decide)
        · rw [List.infix_cons_iff] at h
          rcases h with h | h
          · rw [List.cons_prefix_cons] at h
            exact absurd h.1 (by decide)
          · rcases infix_pair_append _ h with h | h | h
            · exact hcct h
            · exact absurd h.sublist.length_le (by decide)
            · exact absurd h.2 (by decide)
      · exact absurd h.2 (by rw [List.head?_cons]; decide)
    unfold strip_rst
    rw [if_neg hne]
    unfold stripRstL
    rw [htl]
    rw [applySub_id _ _ fun t ht => matchCodeLiteral_none fun hm => hbtF (ht.sublist.subset hm)]
    rw [applySub_id _ _ fun t ht => matchRoleTarget_none fun hm => hbtF (ht.sublist.subset hm)]
    rw [applySub_id _ _ fun t ht => matchRole_none fun hm => hbtF (ht.sublist.subset hm)]
    rw [applySub_id _ _ (matchAngle_url_none hlt hltt hURL)]
    rw [applySub_id _ _ fun t ht =>
      matchDoubleBacktick_none fun hm => hbtF (ht.sublist.subset hm)]
    rw [applySub_id _ _ fun t ht =>
      matchRefUnderscore_none fun hm => hbtF (ht.sublist.subset hm)]
    rw [applySub_id _ _ fun t ht => matchNoteDir_none fun hinf => hccF (hinf.trans ht.isInfix)]
    rw [applySub_id _ _ fun t ht =>
      matchVersionAdded_none fun hinf => hccF (hinf.trans ht.isInfix)]
    rw [applySub_id _ _ fun t ht =>
      matchCodeBlockDir_none fun hinf => hccF (hinf.trans ht.isInfix)]
    rw [applySub_id _ _ fun t ht => matchSubRef_none fun hm => hbarF (ht.sublist.subset hm)]
    rw [applySub_id _ _ fun t ht => matchDcolon_none fun hinf => hccF (hinf.trans ht.isInfix)]

/-- Witness for C3 at concrete inputs: a lowercase action-style target is
deleted, a URL target is kept. -/
theorem strip_rst_angle_target_witness :
    strip_rst ("Close the window" ++ " <" ++ "action-close_window" ++ ">") =
      String.mk (trimL "Close the window".toList) ∧
    strip_rst ("see" ++ " <" ++ "https://example.com" ++ ">") =
      String.mk (trimL ("see" ++ " <" ++ "https://example.com" ++ ">").toList) :=
  ⟨(strip_rst_angle_target "Close the window" "action-close_window"
      (by decide) (by decide) (by decide) (by decide)).1
      ⟨'a', "ction-close_window".toList, by decide, by decide⟩
      (by decide) (by decide) (by decide),
    (strip_rst_angle_target "see" "https://example.com"
      (by decide) (by decide) (by decide) (by decide)).2
      (by decide) (by decide) (by decide) (by decide) (Or.inr (by decide))⟩

end KittyConf
